import Mathlib

/-!
Verification of the RefBib client-side deduplication / conflict-resolution
engine (frontend workspace hook `useWorkspace` and `lib/text-utils.ts`).

The engine is shallowly embedded:
* JS strings are `List Char` (`Str`); truthiness of a `string | null` value
  (`Boolean(x)`, `if (x)`) is `truthyS` / `truthyVal` (null or "" is falsy).
* JS numbers appearing in similarity scores are embedded as the exact
  fraction type `Score` with cross-multiplied comparisons.  All scores are
  fractions `2·o/(a+b)` with tiny denominators, and the thresholds are the
  literals 0.95 and 0.88; at these magnitudes IEEE double rounding can never
  cross a comparison boundary, so the double comparisons of the JS code
  coincide with exact rational comparisons, which `Score.le_iff_val_le` /
  `Score.lt_iff_val_lt` relate to the embedded ones.
* `crypto.randomUUID()` / `createId()` is modelled by a fresh-id counter
  (`seed`) threaded through `addReferences`; entry ids are `Nat`.
* `Date.now()` is an explicit `now : Nat` argument.
* JS `Map` is an association list where `mset` prepends (so the most recent
  binding shadows older ones, exactly the `Map.set` overwrite semantics).
* Fingerprint strings `"doi:"+d`, `"title:"+t+"|year:"+y+"|author:"+a` and
  `"manual:"+id` are embedded as the inductive `Fp`; the string encoding is
  injective (the normalized components contain no `|` or `:`), so equality of
  the encodings coincides with equality in `Fp`.
* Fields of `Reference` that the engine never reads (venue, citation_key,
  match_source, url) are omitted; the discovery cache is carried as an inert
  payload (no verified operation reads it).
-/

namespace RefBib

/-- JS strings, embedded as lists of characters. -/
abbrev Str := List Char

/-- Truthiness of a JS `string | null` value: null and "" are falsy. -/
def truthyS : Option Str → Bool
  | some (_ :: _) => true
  | _ => false

/-- The string content of a truthy `string | null` value, if any. -/
def truthyVal : Option Str → Option Str
  | some (c :: cs) => some (c :: cs)
  | _ => none

/-- JS `\s` on the character classes the engine meets. -/
def isJsWs (c : Char) : Bool :=
  c = ' ' || c = '\t' || c = '\n' || c = '\r'

/-- Splitter used to model `replace(/\s+/g, " ").trim()`: the maximal
whitespace-free runs of a string, in order. -/
def splitWsGo : Str → Str → List Str
  | [], acc => if acc = [] then [] else [acc.reverse]
  | c :: rest, acc =>
    if isJsWs c then
      (if acc = [] then splitWsGo rest [] else acc.reverse :: splitWsGo rest [])
    else splitWsGo rest (c :: acc)

def splitWs (s : Str) : List Str := splitWsGo s []

/-- Rejoin words with single spaces. -/
def joinWords : List Str → Str
  | [] => []
  | [w] => w
  | w :: x :: rest => w ++ (' ' :: joinWords (x :: rest))

/-- `normalizeText` (text-utils.ts): lower-case, replace characters outside
`[a-z0-9\s]` by a space, collapse whitespace runs, trim; absent input gives
the empty string. -/
def normalizeText (v : Option Str) : Str :=
  match v with
  | some (c :: cs) =>
    let lowered := (c :: cs).map Char.toLower
    let replaced := lowered.map (fun ch =>
      if ('a' ≤ ch ∧ ch ≤ 'z') ∨ ('0' ≤ ch ∧ ch ≤ '9') ∨ isJsWs ch then ch else ' ')
    joinWords (splitWs replaced)
  | _ => []

/-- Contiguous two-character windows of a string. -/
def windowPairs : Str → List Str
  | a :: b :: rest => [a, b] :: windowPairs (b :: rest)
  | _ => []

/-- JS `Set.add`: append the element unless already present. -/
def addGram (gs : List Str) (g : Str) : List Str :=
  if g ∈ gs then gs else gs ++ [g]

/-- `buildBigrams` (text-utils.ts): the set of contiguous 2-character
substrings of the normalized, whitespace-stripped string, as a duplicate-free
list in first-occurrence order. -/
def buildBigrams (value : Str) : List Str :=
  ((windowPairs ((normalizeText (some value)).filter (fun ch => !isJsWs ch)))).foldl addGram []

/-- A similarity score `num / den`, kept as an exact unnormalized fraction
with positive denominator.  The JS code computes `(2*overlap)/(sizeA+sizeB)`
as an IEEE double and only ever compares scores; for these tiny fractions the
double comparisons agree with the exact rational ones, which in turn agree
with the cross-multiplied `Nat` comparisons below. -/
structure Score where
  num : Nat
  den : Nat
deriving DecidableEq

namespace Score

/-- Exact ordering of fractions with positive denominators. -/
def le (a b : Score) : Prop := a.num * b.den ≤ b.num * a.den

def lt (a b : Score) : Prop := a.num * b.den < b.num * a.den

instance (a b : Score) : Decidable (le a b) := by unfold le; infer_instance

instance (a b : Score) : Decidable (lt a b) := by unfold lt; infer_instance

/-- The rational value of a score. -/
def val (s : Score) : ℚ := (s.num : ℚ) / (s.den : ℚ)

/-- For positive denominators the cross-multiplied ordering is the rational
one, so the embedding's comparisons are exactly the source's. -/
theorem le_iff_val_le (a b : Score) (ha : 0 < a.den) (hb : 0 < b.den) :
    le a b ↔ val a ≤ val b := by
  unfold le val
  rw [div_le_div_iff₀ (by exact_mod_cast ha) (by exact_mod_cast hb)]
  exact_mod_cast Iff.rfl

theorem lt_iff_val_lt (a b : Score) (ha : 0 < a.den) (hb : 0 < b.den) :
    lt a b ↔ val a < val b := by
  unfold lt val
  rw [div_lt_div_iff₀ (by exact_mod_cast ha) (by exact_mod_cast hb)]
  exact_mod_cast Iff.rfl

end Score

/-- The auto-merge threshold 0.95. -/
def AUTO_MERGE_THRESHOLD : Score := ⟨95, 100⟩

/-- The conflict threshold 0.88. -/
def CONFLICT_THRESHOLD : Score := ⟨88, 100⟩

/-- `titleSimilarity` (text-utils.ts): Dice coefficient of the bigram sets;
0 when either title is absent/empty or either bigram set is empty. -/
def titleSimilarity (a b : Option Str) : Score :=
  match truthyVal a, truthyVal b with
  | some sa, some sb =>
    let gA := buildBigrams sa
    let gB := buildBigrams sb
    if gA.length = 0 ∨ gB.length = 0 then ⟨0, 1⟩
    else ⟨2 * (gA.filter (fun g => g ∈ gB)).length, gA.length + gB.length⟩
  | _, _ => ⟨0, 1⟩

/-- Trim leading and trailing JS whitespace. -/
def trimWs (s : Str) : Str :=
  ((s.dropWhile isJsWs).reverse.dropWhile isJsWs).reverse

/-- If `pat` leads `s`, the remainder of `s`; otherwise `none`. -/
def dropLeading : Str → Str → Option Str
  | [], s => some s
  | _ :: _, [] => none
  | p :: ps, c :: cs => if c = p then dropLeading ps cs else none

/-- Strip a leading `http(s)://(dx.)?doi.org/` (regex alternation, anchored). -/
def stripDoiUrl (s : Str) : Str :=
  match dropLeading ("https://dx.doi.org/".data) s with
  | some r => r
  | none =>
  match dropLeading ("https://doi.org/".data) s with
  | some r => r
  | none =>
  match dropLeading ("http://dx.doi.org/".data) s with
  | some r => r
  | none =>
  match dropLeading ("http://doi.org/".data) s with
  | some r => r
  | none => s

/-- Strip a leading `doi:` together with following whitespace. -/
def stripDoiLabel (s : Str) : Str :=
  match dropLeading ("doi:".data) s with
  | some r => r.dropWhile isJsWs
  | none => s

/-- `normalizeDoi` (use-workspace.ts): absent/empty input gives `none`;
otherwise trim, lower-case, strip a leading doi.org URL, then a leading
`doi:` label.  The result may still be the empty string (e.g. input `"doi:"`),
which callers treat as falsy via `truthyS`/`truthyVal`. -/
def normalizeDoi (v : Option Str) : Option Str :=
  match v with
  | some (c :: cs) =>
    some (stripDoiLabel (stripDoiUrl ((trimWs (c :: cs)).map Char.toLower)))
  | _ => none

/-- `match_status` tag of a reference. -/
inductive MatchStatus where
  | matched
  | fuzzy
  | unmatched
deriving DecidableEq

/-- Dedup status of a workspace entry (types.ts also allows `merged`, which
no core operation ever assigns). -/
inductive DedupStatus where
  | unique
  | merged
  | conflict
deriving DecidableEq

/-- Resolution choice for `resolveConflict`. -/
inductive ConflictResolution where
  | merge
  | keep_both
deriving DecidableEq

/-- The fields of a `Reference` record that the dedup engine reads.
Presentation-only fields (venue, citation_key, match_source, url) are
omitted; they are never consulted by the verified operations. -/
structure Reference where
  index : Nat
  title : Option Str
  authors : List Str
  year : Option Nat
  doi : Option Str
  bibtex : Option Str
  match_status : MatchStatus
  raw_citation : Str
deriving DecidableEq

/-- First token of the normalized first-author string (empty if none). -/
def extractFirstAuthor (authors : List Str) : Str :=
  match authors with
  | [] => []
  | a :: _ =>
    match splitWs (normalizeText (some a)) with
    | [] => []
    | w :: _ => w

/-- Identity fingerprints.  `Fp.doi d` embeds `"doi:"+d`; `Fp.titleKey t y a`
embeds `"title:"+t+"|year:"+(y or "na")+"|author:"+a`; `Fp.manual n` embeds
the synthetic `"manual:"+createId()`.  The string encoding is injective, so
`Fp` equality coincides with string equality of the encodings. -/
inductive Fp where
  | doi : Str → Fp
  | titleKey : Str → Option Nat → Str → Fp
  | manual : Nat → Fp
deriving DecidableEq

/-- `exactFingerprint` (use-workspace.ts); `none` embeds the empty string
(no identity). -/
def exactFingerprint (r : Reference) : Option Fp :=
  match truthyVal (normalizeDoi r.doi) with
  | some d => some (Fp.doi d)
  | none =>
    match normalizeText r.title with
    | [] => none
    | c :: cs => some (Fp.titleKey (c :: cs) r.year (extractFirstAuthor r.authors))

/-- A provenance record (`WorkspaceSourceRef`). -/
structure WorkspaceSourceRef where
  paper_id : Str
  paper_label : Str
  source_index : Nat
deriving DecidableEq

/-- A workspace entry.  `override_bibtex` is omitted: it is only touched by
`updateEntryBibtex`, which is outside the verified operations. -/
structure WorkspaceEntry where
  id : Nat
  workspace_id : Str
  paper_id : Str
  source_index : Nat
  ref_fingerprint : Fp
  dedup_status : DedupStatus
  reference : Reference
  source_refs : List WorkspaceSourceRef
  occurrence_count : Nat
  conflict_with : Option Nat
  resolved_at : Option Nat
  created_at : Nat
  updated_at : Nat
deriving DecidableEq

structure WorkspaceMeta where
  id : Str
  name : Str
  created_at : Nat
  updated_at : Nat
deriving DecidableEq

/-- The versioned store (`WorkspaceStoreV2`).  The discovery cache is carried
as an inert payload keyed by fingerprint strings: none of the verified
operations reads it, they only preserve it through the record spread. -/
structure WorkspaceStoreV2 where
  version : Nat
  active_workspace_id : Str
  workspaces : List WorkspaceMeta
  entries : List WorkspaceEntry
  discovery_cache : List (Str × Nat)
  updated_at : Nat
deriving DecidableEq

def DEFAULT_WORKSPACE_ID : Str := "default".data
def DEFAULT_WORKSPACE_NAME : Str := "Workspace".data

/-- `createEmptyStore`. -/
def createEmptyStore (now : Nat) : WorkspaceStoreV2 :=
  { version := 2
    active_workspace_id := DEFAULT_WORKSPACE_ID
    workspaces := [{ id := DEFAULT_WORKSPACE_ID, name := DEFAULT_WORKSPACE_NAME,
                     created_at := now, updated_at := now }]
    entries := []
    discovery_cache := []
    updated_at := now }

/-- `mergeSourceRef` (use-workspace.ts): append the source reference unless an
entry with the same (paper id, source index) is already present, bumping
`occurrence_count` and the update stamp. -/
def mergeSourceRef (entry : WorkspaceEntry) (sourceRef : WorkspaceSourceRef) (now : Nat) :
    WorkspaceEntry :=
  if entry.source_refs.any (fun s =>
      decide (s.paper_id = sourceRef.paper_id ∧ s.source_index = sourceRef.source_index)) then
    entry
  else
    { entry with
      source_refs := entry.source_refs ++ [sourceRef]
      occurrence_count := entry.occurrence_count + 1
      updated_at := now }

/-! ### List and map helpers (JS array / Map primitives) -/

/-- `l[i] = f(l[i])` for a valid index; no-op on an invalid one (which the
engine never produces). -/
def listModify {α : Type} : List α → Nat → (α → α) → List α
  | [], _, _ => []
  | a :: t, 0, f => f a :: t
  | a :: t, n + 1, f => a :: listModify t n f

/-- `l[i] = v`. -/
def listSet {α : Type} (l : List α) (i : Nat) (v : α) : List α :=
  listModify l i (fun _ => v)

/-- `l.splice(i, 1)`. -/
def listEraseAt {α : Type} : List α → Nat → List α
  | [], _ => []
  | _ :: t, 0 => t
  | a :: t, n + 1 => a :: listEraseAt t n

/-- JS `Array.findIndex`, with `none` for -1. -/
def findIdxGo {α : Type} (p : α → Bool) : List α → Nat → Option Nat
  | [], _ => none
  | a :: t, i => if p a then some i else findIdxGo p t (i + 1)

def findIndex {α : Type} (p : α → Bool) (l : List α) : Option Nat :=
  findIdxGo p l 0

/-- JS `Map.set`: the new binding shadows any older one. -/
def mset {κ : Type} (m : List (κ × Nat)) (k : κ) (v : Nat) : List (κ × Nat) :=
  (k, v) :: m

/-- JS `Map.get`, honouring `mset` shadowing. -/
def mget {κ : Type} [DecidableEq κ] : List (κ × Nat) → κ → Option Nat
  | [], _ => none
  | (k', v) :: t, k => if k = k' then some v else mget t k

/-! ### addReferences -/

structure AddReferencesInput where
  paperId : Str
  paperLabel : Str
  references : List Reference
deriving DecidableEq

structure WorkspaceAddResult where
  added : Nat
  merged : Nat
  conflicts : Nat
deriving DecidableEq

/-- The loop state of one `addReferences` batch: the entry snapshot, the two
lookup maps, the fuzzy-candidate index list, the running result counters and
the fresh-id counter. -/
structure BatchState where
  entries : List WorkspaceEntry
  doiMap : List (Str × Nat)
  fpMap : List (Fp × Nat)
  simCands : List Nat
  result : WorkspaceAddResult
  seed : Nat
deriving DecidableEq

/-- Initial batch state: a copy of the store's entries, empty maps, zero
counters. -/
def initBatch (entries : List WorkspaceEntry) (seed : Nat) : BatchState :=
  { entries := entries, doiMap := [], fpMap := [], simCands := [],
    result := ⟨0, 0, 0⟩, seed := seed }

/-- One step of the index-prebuild loop over an existing entry at index `i`:
entries of other workspaces are skipped; a truthy normalized DOI goes into the
DOI map, otherwise the index becomes a fuzzy candidate; a non-empty exact
fingerprint goes into the fingerprint map. -/
def scanEntry (wsId : Str) (st : BatchState) (i : Nat) (entry : WorkspaceEntry) : BatchState :=
  if entry.workspace_id ≠ wsId then st
  else
    let st1 :=
      match truthyVal (normalizeDoi entry.reference.doi) with
      | some d => { st with doiMap := mset st.doiMap d i }
      | none => { st with simCands := st.simCands ++ [i] }
    match exactFingerprint entry.reference with
    | some f => { st1 with fpMap := mset st1.fpMap f i }
    | none => st1

/-- The prebuild loop (`for (let i = 0; i < nextEntries.length; i += 1)`). -/
def buildMapsGo (wsId : Str) : List WorkspaceEntry → Nat → BatchState → BatchState
  | [], _, st => st
  | e :: t, i, st => buildMapsGo wsId t (i + 1) (scanEntry wsId st i e)

/-- Similarity of the incoming title against the candidate entry at index
`idx` (0 for an out-of-range index, which the engine never produces). -/
def scoreOf (entries : List WorkspaceEntry) (t : Option Str) (idx : Nat) : Score :=
  match entries.get? idx with
  | some c => titleSimilarity t c.reference.title
  | none => ⟨0, 1⟩

/-- The fuzzy scan (`for (const candidateIdx of similarityCandidateIndices)`):
strict improvement updates the best candidate, so ties keep the
first-encountered candidate. -/
def fuzzyScan (entries : List WorkspaceEntry) (t : Option Str) :
    List Nat → Option Nat × Score → Option Nat × Score
  | [], acc => acc
  | idx :: rest, (b, s) =>
    let sc := scoreOf entries t idx
    if Score.lt s sc then fuzzyScan entries t rest (some idx, sc)
    else fuzzyScan entries t rest (b, s)

/-- Step 1 of the per-reference match: DOI exact lookup (only for a truthy
normalized DOI). -/
def doiLookup (st : BatchState) (r : Reference) : Option Nat :=
  match truthyVal (normalizeDoi r.doi) with
  | some d => mget st.doiMap d
  | none => none

/-- Step 2: exact-fingerprint lookup (only for a non-empty fingerprint). -/
def fpLookup (st : BatchState) (r : Reference) : Option Nat :=
  match exactFingerprint r with
  | some f => mget st.fpMap f
  | none => none

/-- Merge action: fold the source reference into the entry at index `i` and
count the reference as merged. -/
def mergeAt (st : BatchState) (i : Nat) (sr : WorkspaceSourceRef) (now : Nat) : BatchState :=
  { st with
    entries := listModify st.entries i (fun e => mergeSourceRef e sr now)
    result := { st.result with merged := st.result.merged + 1 } }

/-- New-entry action: create the entry with one source reference, wire the
back-reference to the best fuzzy candidate (if any), classify `conflict`
exactly when such a candidate exists with similarity at least 0.88, and update
the incremental indices. -/
def pushNew (st : BatchState) (wsId : Str) (now : Nat) (r : Reference)
    (sr : WorkspaceSourceRef) (bIdx : Option Nat) (s : Score) : BatchState :=
  let bestCandidateId : Option Nat :=
    match bIdx with
    | some i =>
      match st.entries.get? i with
      | some c => some c.id
      | none => none
    | none => none
  let isConf : Bool := bestCandidateId.isSome && decide (Score.le CONFLICT_THRESHOLD s)
  let newId := st.seed
  let fpAndSeed : Fp × Nat :=
    match exactFingerprint r with
    | some f => (f, st.seed + 1)
    | none => (Fp.manual (st.seed + 1), st.seed + 2)
  let newIdx := st.entries.length
  let entry : WorkspaceEntry :=
    { id := newId
      workspace_id := wsId
      paper_id := sr.paper_id
      source_index := r.index
      ref_fingerprint := fpAndSeed.1
      dedup_status := if isConf then .conflict else .unique
      reference := r
      source_refs := [sr]
      occurrence_count := 1
      conflict_with := bestCandidateId
      resolved_at := none
      created_at := now
      updated_at := now }
  let withMaps :=
    match truthyVal (normalizeDoi r.doi) with
    | some d => { st with doiMap := mset st.doiMap d newIdx }
    | none => { st with simCands := st.simCands ++ [newIdx] }
  { withMaps with
    entries := st.entries ++ [entry]
    fpMap := mset st.fpMap fpAndSeed.1 newIdx
    seed := fpAndSeed.2
    result := { added := st.result.added + 1
                merged := st.result.merged
                conflicts := st.result.conflicts + (if isConf then 1 else 0) } }

/-- The body of `for (const reference of selected)`: DOI match, then
fingerprint match, then fuzzy scan with auto-merge at 0.95, otherwise a new
entry. -/
def processRef (wsId paperId paperLabel : Str) (now : Nat)
    (st : BatchState) (r : Reference) : BatchState :=
  let sr : WorkspaceSourceRef :=
    { paper_id := paperId, paper_label := paperLabel, source_index := r.index }
  match (match doiLookup st r with
         | some i => some i
         | none => fpLookup st r) with
  | some i => mergeAt st i sr now
  | none =>
    match fuzzyScan st.entries r.title st.simCands (none, ⟨0, 1⟩) with
    | (some i, s) =>
      if Score.le AUTO_MERGE_THRESHOLD s then mergeAt st i sr now
      else pushNew st wsId now r sr (some i) s
    | (none, s) => pushNew st wsId now r sr none s

/-- Predicate for participation in a batch: `Boolean(reference.bibtex)`. -/
def qualifies (r : Reference) : Bool := truthyS r.bibtex

/-- `addReferences`.  Returns the committed store, the batch counters, and the
advanced fresh-id counter. -/
def addReferences (store : WorkspaceStoreV2) (input : AddReferencesInput)
    (now : Nat) (seed : Nat) : WorkspaceStoreV2 × WorkspaceAddResult × Nat :=
  let selected := input.references.filter qualifies
  let wsId := store.active_workspace_id
  let st0 := buildMapsGo wsId store.entries 0 (initBatch store.entries seed)
  let stF := selected.foldl (processRef wsId input.paperId input.paperLabel now) st0
  let nextStore : WorkspaceStoreV2 :=
    { store with
      entries := stF.entries
      workspaces := store.workspaces.map (fun w =>
        if w.id = wsId then { w with updated_at := now } else w)
      updated_at := now }
  (nextStore, stF.result, stF.seed)

/-! ### clearWorkspace -/

/-- `clearWorkspace`: drop the active workspace's entries, stamp its meta. -/
def clearWorkspace (store : WorkspaceStoreV2) (now : Nat) : WorkspaceStoreV2 :=
  { store with
    entries := store.entries.filter (fun e =>
      decide (e.workspace_id ≠ store.active_workspace_id))
    workspaces := store.workspaces.map (fun w =>
      if w.id = store.active_workspace_id then { w with updated_at := now } else w)
    updated_at := now }

/-! ### resolveConflict -/

/-- The search predicate of `resolveConflict`: id match within the active
workspace. -/
def entryPred (wsId : Str) (targetId : Nat) (e : WorkspaceEntry) : Bool :=
  decide (e.id = targetId ∧ e.workspace_id = wsId)

/-- Quality rank used by the `merge` resolution: raw-DOI truthiness beats
`matched` beats `fuzzy` beats `unmatched`. -/
def rank (e : WorkspaceEntry) : Nat :=
  if truthyS e.reference.doi then 3
  else match e.reference.match_status with
    | .matched => 2
    | .fuzzy => 1
    | .unmatched => 0

/-- Membership of a (paper id, source index) key. -/
def hasKey : List WorkspaceSourceRef → WorkspaceSourceRef → Bool
  | [], _ => false
  | s :: t, sr =>
    if s.paper_id = sr.paper_id ∧ s.source_index = sr.source_index then true
    else hasKey t sr

/-- The loser-into-winner union of source references: each loser reference is
appended unless its (paper id, source index) key is already present. -/
def mergeRefs (acc : List WorkspaceSourceRef) : List WorkspaceSourceRef → List WorkspaceSourceRef
  | [] => acc
  | sr :: t => if hasKey acc sr then mergeRefs acc t else mergeRefs (acc ++ [sr]) t

/-- The winning entry after a merge resolution: status `unique`, link
cleared, deduplicated union of source references, summed occurrence counts,
stamps. -/
def mergedWinner (winner loser : WorkspaceEntry) (now : Nat) : WorkspaceEntry :=
  { winner with
    dedup_status := .unique
    conflict_with := none
    source_refs := mergeRefs winner.source_refs loser.source_refs
    occurrence_count := winner.occurrence_count + loser.occurrence_count
    resolved_at := some now
    updated_at := now }

/-- Clear the resolved entry: status `unique`, back-reference removed,
resolution and update stamps. -/
def clearEntry (e : WorkspaceEntry) (now : Nat) : WorkspaceEntry :=
  { e with dedup_status := .unique, conflict_with := none,
           resolved_at := some now, updated_at := now }

/-- Post-deletion cleanup: any entry whose back-reference pointed at the
deleted loser has it cleared and its status reset to `unique`. -/
def cleanupLoser (loserId : Nat) (now : Nat) (e : WorkspaceEntry) : WorkspaceEntry :=
  if e.conflict_with = some loserId then
    { e with conflict_with := none, dedup_status := .unique, updated_at := now }
  else e

/-- The conflict-counterpart lookup (`entry.conflict_with` chased through
`findIndex`, `none` embedding -1). -/
def conflictIdxOf (entries : List WorkspaceEntry) (wsId : Str)
    (entry : WorkspaceEntry) : Option Nat :=
  match entry.conflict_with with
  | some cid => findIndex (entryPred wsId cid) entries
  | none => none

/-- The next entry list of a `keep_both` resolution: clear the resolved
entry; if the counterpart (read from the already-updated list, exactly as the
source does) reciprocally points back and is still a conflict, clear it
symmetrically. -/
def keepBothEntries (entries : List WorkspaceEntry) (wsId : Str) (entryId : Nat)
    (entryIdx : Nat) (entry : WorkspaceEntry) (now : Nat) : List WorkspaceEntry :=
  match conflictIdxOf entries wsId entry with
  | some j =>
    match (listSet entries entryIdx (clearEntry entry now)).get? j with
    | some other =>
      if other.dedup_status = .conflict ∧ other.conflict_with = some entryId then
        listSet (listSet entries entryIdx (clearEntry entry now)) j (clearEntry other now)
      else listSet entries entryIdx (clearEntry entry now)
    | none => listSet entries entryIdx (clearEntry entry now)
  | none => listSet entries entryIdx (clearEntry entry now)

/-- The next entry list of a `merge` resolution: degrade to `keep_both`
semantics without a counterpart; otherwise rank, combine into the winner,
splice out the loser, and clear any back-references to it. -/
def mergeEntries (entries : List WorkspaceEntry) (wsId : Str)
    (entryIdx : Nat) (entry : WorkspaceEntry) (now : Nat) : List WorkspaceEntry :=
  match conflictIdxOf entries wsId entry with
  | none => listSet entries entryIdx (clearEntry entry now)
  | some j =>
    match entries.get? j with
    | none => entries
    | some other =>
      match (if rank entry < rank other then (j, entryIdx) else (entryIdx, j)) with
      | (wIdx, lIdx) =>
        match entries.get? wIdx, entries.get? lIdx with
        | some winner, some loser =>
          (listEraseAt (listSet entries wIdx (mergedWinner winner loser now)) lIdx).map
            (cleanupLoser loser.id now)
        | _, _ => entries

/-- `resolveConflict`.  A silent no-op unless the entry exists in the active
workspace with status `conflict`. -/
def resolveConflict (store : WorkspaceStoreV2) (entryId : Nat)
    (resolution : ConflictResolution) (now : Nat) : WorkspaceStoreV2 :=
  match findIndex (entryPred store.active_workspace_id entryId) store.entries with
  | none => store
  | some entryIdx =>
    match store.entries.get? entryIdx with
    | none => store
    | some entry =>
      if entry.dedup_status = .conflict then
        { store with
          entries :=
            match resolution with
            | .keep_both =>
              keepBothEntries store.entries store.active_workspace_id entryId
                entryIdx entry now
            | .merge =>
              mergeEntries store.entries store.active_workspace_id entryIdx entry now
          workspaces := store.workspaces.map (fun w =>
            if w.id = store.active_workspace_id then { w with updated_at := now } else w)
          updated_at := now }
      else store

/-- Total occurrence count over an entry list (`stats.refs`). -/
def totalOcc (l : List WorkspaceEntry) : Nat :=
  (l.map (fun e => e.occurrence_count)).sum

/-! ### Reachability

The stores reachable from the empty store by the three verified mutating
operations; the fresh-id counter is threaded alongside. -/

inductive Reachable : WorkspaceStoreV2 → Nat → Prop where
  | empty (now : Nat) : Reachable (createEmptyStore now) 0
  | add {s : WorkspaceStoreV2} {n : Nat} (h : Reachable s n)
      (input : AddReferencesInput) (now : Nat) :
      Reachable (addReferences s input now n).1 (addReferences s input now n).2.2
  | resolve {s : WorkspaceStoreV2} {n : Nat} (h : Reachable s n)
      (entryId : Nat) (res : ConflictResolution) (now : Nat) :
      Reachable (resolveConflict s entryId res now) n
  | clear {s : WorkspaceStoreV2} {n : Nat} (h : Reachable s n) (now : Nat) :
      Reachable (clearWorkspace s now) n

/-! ### Invariant predicates -/

/-- The entry-level invariants maintained by the engine over a list of
entries: every entry lives in workspace `wsId`; the source-reference list is
never longer than the occurrence count; ids are below the fresh-id counter;
and every `conflict` entry carries a back-reference to a distinct existing
entry. -/
def EntriesInv (wsId : Str) (n : Nat) (l : List WorkspaceEntry) : Prop :=
  (∀ e ∈ l, e.workspace_id = wsId) ∧
  (∀ e ∈ l, e.source_refs.length ≤ e.occurrence_count) ∧
  (∀ e ∈ l, e.id < n) ∧
  (∀ e ∈ l, e.dedup_status = .conflict →
    ∃ cid, e.conflict_with = some cid ∧ cid ≠ e.id ∧ ∃ e2 ∈ l, e2.id = cid)

/-- Store-level invariant: the active workspace is the default one (no
operation ever changes it), and the entries satisfy `EntriesInv`. -/
def StoreInv (s : WorkspaceStoreV2) (n : Nat) : Prop :=
  s.active_workspace_id = DEFAULT_WORKSPACE_ID ∧
  EntriesInv DEFAULT_WORKSPACE_ID n s.entries

/-- Batch-state invariant about the lookup indices: every fuzzy-candidate
index denotes an active-workspace entry with a falsy normalized DOI, and both
maps only point at active-workspace entries. -/
def MapsActive (wsId : Str) (st : BatchState) : Prop :=
  (∀ i ∈ st.simCands, ∃ e, st.entries.get? i = some e ∧
    e.workspace_id = wsId ∧ truthyVal (normalizeDoi e.reference.doi) = none) ∧
  (∀ d i, mget st.doiMap d = some i → ∃ e, st.entries.get? i = some e ∧
    e.workspace_id = wsId) ∧
  (∀ f i, mget st.fpMap f = some i → ∃ e, st.entries.get? i = some e ∧
    e.workspace_id = wsId)

/-- No entry of a foreign workspace back-references an active-workspace
entry.  (Trivially true of every reachable store, where all entries live in
the default workspace.) -/
def NoCrossRef (s : WorkspaceStoreV2) : Prop :=
  ∀ e ∈ s.entries, e.workspace_id ≠ s.active_workspace_id →
    ∀ e2 ∈ s.entries, e2.workspace_id = s.active_workspace_id →
      e.conflict_with ≠ some e2.id

/-! ### Concrete inputs for witnesses and counterexamples -/

/-- A DOI-less, bibtex-bearing reference with title "abcdefghijk"
(10 bigrams). -/
def cexRefA : Reference :=
  { index := 0, title := some "abcdefghijk".data, authors := [], year := none,
    doi := none, bibtex := some "x".data, match_status := .unmatched, raw_citation := [] }

/-- Title "abcdefghijx": 10 bigrams, 9 shared with `cexRefA`, Dice similarity
18/20 = 0.9 — inside the conflict band [0.88, 0.95). -/
def cexRefB : Reference := { cexRefA with title := some "abcdefghijx".data }

/-- Title "abmnopqrstu": 10 bigrams, 1 shared with `cexRefA`, Dice similarity
2/20 = 0.1 — positive but far below the conflict threshold. -/
def cexRefC : Reference := { cexRefA with title := some "abmnopqrstu".data }

def cexInpA : AddReferencesInput := ⟨"p1".data, "P1".data, [cexRefA]⟩

/-- Submitted from the same paper with the same source index as `cexInpA`, so
the resulting entry's single source reference collides with the first
entry's. -/
def cexInpB : AddReferencesInput := ⟨"p1".data, "P1".data, [cexRefB]⟩

def cexInpC : AddReferencesInput := ⟨"p2".data, "P2".data, [cexRefC]⟩

/-- A minimal conflict-pair entry (no DOI, `unmatched`): used to build
concrete stores for the `resolveConflict` witnesses. -/
def witEntry (id : Nat) (ws : Str) (st : DedupStatus) (cw : Option Nat)
    (pid : Str) (idx : Nat) : WorkspaceEntry :=
  { id := id, workspace_id := ws, paper_id := pid, source_index := idx,
    ref_fingerprint := Fp.manual id, dedup_status := st,
    reference := { index := idx, title := none, authors := [], year := none,
                   doi := none, bibtex := some "x".data,
                   match_status := .unmatched, raw_citation := [] },
    source_refs := [⟨pid, pid, idx⟩], occurrence_count := 1,
    conflict_with := cw, resolved_at := none, created_at := 0, updated_at := 0 }

/-- A store holding a reciprocal conflict pair (ids 0 and 1) in the default
workspace. -/
def witPairStore : WorkspaceStoreV2 :=
  { createEmptyStore 0 with
    entries := [witEntry 0 DEFAULT_WORKSPACE_ID .conflict (some 1) "p1".data 0,
                witEntry 1 DEFAULT_WORKSPACE_ID .conflict (some 0) "p2".data 1] }

/-- A store holding a `unique` entry with id 0: resolving it must be a
no-op. -/
def witUniqueStore : WorkspaceStoreV2 :=
  { createEmptyStore 0 with
    entries := [witEntry 0 DEFAULT_WORKSPACE_ID .unique none "p1".data 0] }

/-- A store with an active-workspace conflict pair (ids 0, 1) and a foreign
entry (id 2, workspace "other") whose back-reference points at the entry that
a merge resolution deletes: the cleanup loop then rewrites the foreign
entry. -/
def cexCrossStore : WorkspaceStoreV2 :=
  { createEmptyStore 0 with
    entries := [witEntry 0 DEFAULT_WORKSPACE_ID .conflict (some 1) "p1".data 0,
                witEntry 1 DEFAULT_WORKSPACE_ID .conflict (some 0) "p2".data 1,
                witEntry 2 ("other".data) .conflict (some 1) "p3".data 2] }

/-- The entry that the first counterexample add creates for `cexRefA`. -/
def cexEntryA : WorkspaceEntry :=
  { id := 0, workspace_id := DEFAULT_WORKSPACE_ID, paper_id := "p1".data,
    source_index := 0,
    ref_fingerprint := Fp.titleKey "abcdefghijk".data none [],
    dedup_status := .unique, reference := cexRefA,
    source_refs := [⟨"p1".data, "P1".data, 0⟩], occurrence_count := 1,
    conflict_with := none, resolved_at := none, created_at := 1, updated_at := 1 }

/-- The conflict entry that the second counterexample add creates for
`cexRefB` (back-reference to `cexEntryA`). -/
def cexEntryB : WorkspaceEntry :=
  { id := 1, workspace_id := DEFAULT_WORKSPACE_ID, paper_id := "p1".data,
    source_index := 0,
    ref_fingerprint := Fp.titleKey "abcdefghijx".data none [],
    dedup_status := .conflict, reference := cexRefB,
    source_refs := [⟨"p1".data, "P1".data, 0⟩], occurrence_count := 1,
    conflict_with := some 0, resolved_at := none, created_at := 2, updated_at := 2 }

/-- A concrete mid-batch state holding `cexEntryA` as the only fuzzy
candidate. -/
def cexBatch : BatchState :=
  { entries := [cexEntryA], doiMap := [], fpMap := [], simCands := [0],
    result := ⟨0, 0, 0⟩, seed := 5 }

/-- A reference carrying a DOI, with a fingerprint-bearing title. -/
def cexRefD : Reference :=
  { index := 3, title := some "quantumfoo".data, authors := [], year := none,
    doi := some "10.1/x".data, bibtex := some "x".data,
    match_status := .matched, raw_citation := [] }

/-- A batch state whose DOI map resolves `cexRefD`'s DOI to index 0. -/
def cexBatchDoi : BatchState :=
  { entries := [cexEntryA], doiMap := [("10.1/x".data, 0)], fpMap := [],
    simCands := [], result := ⟨0, 0, 0⟩, seed := 5 }

/-! ### Lemmas about the list primitives -/

theorem get?_some_lt {α : Type} {l : List α} {i : Nat} {a : α}
    (h : l.get? i = some a) : i < l.length := by
  induction l generalizing i with
  | nil => simp [List.get?] at h
  | cons x t ih =>
    cases i with
    | zero => simp
    | succ n => simpa using Nat.succ_lt_succ (ih (by simpa using h))

theorem mem_of_get? {α : Type} {l : List α} {i : Nat} {a : α}
    (h : l.get? i = some a) : a ∈ l := by
  induction l generalizing i with
  | nil => simp [List.get?] at h
  | cons x t ih =>
    cases i with
    | zero => simp at h; simp [h]
    | succ n => exact List.mem_cons_of_mem _ (ih (by simpa using h))

theorem listModify_length {α : Type} (l : List α) (i : Nat) (f : α → α) :
    (listModify l i f).length = l.length := by
  induction l generalizing i with
  | nil => rfl
  | cons x t ih =>
    cases i with
    | zero => rfl
    | succ n => simp [listModify, ih]

theorem get?_listModify_self {α : Type} {l : List α} {i : Nat} {a : α} (f : α → α)
    (h : l.get? i = some a) : (listModify l i f).get? i = some (f a) := by
  induction l generalizing i with
  | nil => simp [List.get?] at h
  | cons x t ih =>
    cases i with
    | zero => simp at h; simp [listModify, h]
    | succ n => simpa [listModify] using ih (by simpa using h)

theorem get?_listModify_ne {α : Type} (l : List α) (i : Nat) (f : α → α)
    {j : Nat} (h : j ≠ i) : (listModify l i f).get? j = l.get? j := by
  induction l generalizing i j with
  | nil => rfl
  | cons x t ih =>
    cases i with
    | zero =>
      cases j with
      | zero => exact absurd rfl h
      | succ m => simp [listModify]
    | succ n =>
      cases j with
      | zero => simp [listModify]
      | succ m =>
        have : m ≠ n := fun hc => h (by simp [hc])
        simpa [listModify] using ih n this

theorem mem_listModify {α : Type} {l : List α} {i : Nat} {f : α → α} {b : α}
    (h : b ∈ listModify l i f) : b ∈ l ∨ ∃ a, l.get? i = some a ∧ b = f a := by
  induction l generalizing i with
  | nil => simp [listModify] at h
  | cons x t ih =>
    cases i with
    | zero =>
      rcases (List.mem_cons.1 h) with h1 | h1
      · exact Or.inr ⟨x, by simp, h1⟩
      · exact Or.inl (List.mem_cons_of_mem _ h1)
    | succ n =>
      rcases (List.mem_cons.1 h) with h1 | h1
      · exact Or.inl (by simp [h1])
      · rcases ih h1 with h2 | ⟨a, ha, hb⟩
        · exact Or.inl (List.mem_cons_of_mem _ h2)
        · exact Or.inr ⟨a, by simpa using ha, hb⟩

/-- Elements of the original list survive `listModify` up to the action of
`f`; in particular any property preserved by `f` keeps a witness. -/
theorem listModify_exists {α : Type} {l : List α} {i : Nat} {f : α → α}
    (P : α → Prop) (hf : ∀ a, P a → P (f a)) (h : ∃ a ∈ l, P a) :
    ∃ b ∈ listModify l i f, P b := by
  induction l generalizing i with
  | nil => simpa [listModify] using h
  | cons x t ih =>
    rcases h with ⟨a, ha, hPa⟩
    cases i with
    | zero =>
      rcases List.mem_cons.1 ha with h1 | h1
      · exact ⟨f x, by simp [listModify], h1 ▸ hf x (h1 ▸ hPa)⟩
      · exact ⟨a, by simp [listModify, h1], hPa⟩
    | succ n =>
      rcases List.mem_cons.1 ha with h1 | h1
      · exact ⟨x, by simp [listModify], h1 ▸ hPa⟩
      · rcases ih (i := n) ⟨a, h1, hPa⟩ with ⟨b, hb, hPb⟩
        exact ⟨b, by simp [listModify, hb], hPb⟩

theorem listEraseAt_length {α : Type} {l : List α} {i : Nat}
    (h : i < l.length) : (listEraseAt l i).length + 1 = l.length := by
  induction l generalizing i with
  | nil => simp at h
  | cons x t ih =>
    cases i with
    | zero => simp [listEraseAt]
    | succ n => simpa [listEraseAt] using ih (by simpa using h)

theorem get?_listEraseAt_lt {α : Type} (l : List α) {i j : Nat}
    (h : j < i) : (listEraseAt l i).get? j = l.get? j := by
  induction l generalizing i j with
  | nil => rfl
  | cons x t ih =>
    cases i with
    | zero => exact absurd h (Nat.not_lt_zero _)
    | succ n =>
      cases j with
      | zero => simp [listEraseAt]
      | succ m => simpa [listEraseAt] using ih (Nat.lt_of_succ_lt_succ h)

theorem get?_listEraseAt_ge {α : Type} (l : List α) {i j : Nat}
    (h : i ≤ j) : (listEraseAt l i).get? j = l.get? (j + 1) := by
  induction l generalizing i j with
  | nil => rfl
  | cons x t ih =>
    cases i with
    | zero => simp [listEraseAt]
    | succ n =>
      cases j with
      | zero => exact absurd h (by simp)
      | succ m => simpa [listEraseAt] using ih (Nat.le_of_succ_le_succ h)

theorem mem_listEraseAt {α : Type} {l : List α} {i : Nat} {b : α}
    (h : b ∈ listEraseAt l i) : b ∈ l := by
  induction l generalizing i with
  | nil => simpa [listEraseAt] using h
  | cons x t ih =>
    cases i with
    | zero => exact List.mem_cons_of_mem _ h
    | succ n =>
      rcases List.mem_cons.1 h with h1 | h1
      · simp [h1]
      · exact List.mem_cons_of_mem _ (ih h1)

theorem findIdxGo_some {α : Type} {p : α → Bool} :
    ∀ {l : List α} {k i : Nat}, findIdxGo p l k = some i →
      ∃ j a, i = k + j ∧ l.get? j = some a ∧ p a = true := by
  intro l
  induction l with
  | nil => intro k i h; simp [findIdxGo] at h
  | cons x t ih =>
    intro k i h
    by_cases hp : p x
    · refine ⟨0, x, ?_, by simp, hp⟩
      simpa [findIdxGo, hp] using h.symm
    · have h' : findIdxGo p t (k + 1) = some i := by
        simpa [findIdxGo, hp] using h
      rcases ih h' with ⟨j, a, hi, hget, hpa⟩
      exact ⟨j + 1, a, by omega, by simpa using hget, hpa⟩

theorem findIndex_some {α : Type} {p : α → Bool} {l : List α} {i : Nat}
    (h : findIndex p l = some i) : ∃ a, l.get? i = some a ∧ p a = true := by
  rcases findIdxGo_some h with ⟨j, a, hi, hget, hpa⟩
  exact ⟨a, by simpa [hi] using hget, hpa⟩

theorem get?_append_left {α : Type} {l m : List α} {i : Nat}
    (h : i < l.length) : (l ++ m).get? i = l.get? i := by
  induction l generalizing i with
  | nil => simp at h
  | cons x t ih =>
    cases i with
    | zero => rfl
    | succ n => simpa using ih (by simpa using h)

theorem get?_append_len {α : Type} (l : List α) (a : α) :
    (l ++ [a]).get? l.length = some a := by
  induction l with
  | nil => rfl
  | cons x t ih => simpa using ih

theorem totalOcc_append (l : List WorkspaceEntry) (e : WorkspaceEntry) :
    totalOcc (l ++ [e]) = totalOcc l + e.occurrence_count := by
  simp [totalOcc]

theorem totalOcc_listModify {l : List WorkspaceEntry} {i : Nat} {a : WorkspaceEntry}
    (f : WorkspaceEntry → WorkspaceEntry) (h : l.get? i = some a) :
    totalOcc (listModify l i f) + a.occurrence_count =
      totalOcc l + (f a).occurrence_count := by
  induction l generalizing i with
  | nil => simp [List.get?] at h
  | cons x t ih =>
    cases i with
    | zero =>
      simp at h
      subst h
      simp [listModify, totalOcc]
      omega
    | succ n =>
      have := ih (i := n) (by simpa using h)
      simp [listModify, totalOcc] at this ⊢
      omega

theorem totalOcc_listEraseAt {l : List WorkspaceEntry} {i : Nat} {a : WorkspaceEntry}
    (h : l.get? i = some a) :
    totalOcc (listEraseAt l i) + a.occurrence_count = totalOcc l := by
  induction l generalizing i with
  | nil => simp [List.get?] at h
  | cons x t ih =>
    cases i with
    | zero =>
      simp at h
      subst h
      simp [listEraseAt, totalOcc]
      omega
    | succ n =>
      have := ih (i := n) (by simpa using h)
      simp [listEraseAt, totalOcc] at this ⊢
      omega

theorem totalOcc_map_occ_preserving (f : WorkspaceEntry → WorkspaceEntry)
    (hf : ∀ e, (f e).occurrence_count = e.occurrence_count) (l : List WorkspaceEntry) :
    totalOcc (l.map f) = totalOcc l := by
  induction l with
  | nil => rfl
  | cons x t ih => simp [totalOcc, hf] at ih ⊢; omega

/-! ### Score order lemmas

The transitivity lemmas need the middle denominator to be positive; this
holds for every score the engine builds (`titleSimilarity_den_pos`). -/

theorem Score.le_refl (a : Score) : Score.le a a := Nat.le_refl _

theorem Score.le_of_lt {a b : Score} (h : Score.lt a b) : Score.le a b :=
  Nat.le_of_lt h

theorem Score.le_of_not_lt {a b : Score} (h : ¬ Score.lt a b) : Score.le b a :=
  Nat.le_of_not_lt h

theorem Score.le_trans {a b c : Score} (hb : 0 < b.den)
    (hab : Score.le a b) (hbc : Score.le b c) : Score.le a c := by
  unfold Score.le at *
  have h1 : a.num * b.den * c.den ≤ b.num * a.den * c.den :=
    Nat.mul_le_mul_right _ hab
  have h2 : b.num * c.den * a.den ≤ c.num * b.den * a.den :=
    Nat.mul_le_mul_right _ hbc
  have h3 : a.num * c.den * b.den ≤ c.num * a.den * b.den := by
    calc a.num * c.den * b.den = a.num * b.den * c.den := by ring
    _ ≤ b.num * a.den * c.den := h1
    _ = b.num * c.den * a.den := by ring
    _ ≤ c.num * b.den * a.den := h2
    _ = c.num * a.den * b.den := by ring
  exact Nat.le_of_mul_le_mul_right h3 hb

theorem Score.lt_of_lt_of_le {a b c : Score} (hc : 0 < c.den)
    (hab : Score.lt a b) (hbc : Score.le b c) : Score.lt a c := by
  unfold Score.lt Score.le at *
  have h1 : a.num * b.den * c.den < b.num * a.den * c.den :=
    mul_lt_mul_of_pos_right hab hc
  have h2 : b.num * c.den * a.den ≤ c.num * b.den * a.den :=
    Nat.mul_le_mul_right _ hbc
  have h3 : b.den * (a.num * c.den) < b.den * (c.num * a.den) := by
    calc b.den * (a.num * c.den) = a.num * b.den * c.den := by ring
    _ < b.num * a.den * c.den := h1
    _ = b.num * c.den * a.den := by ring
    _ ≤ c.num * b.den * a.den := h2
    _ = b.den * (c.num * a.den) := by ring
  exact Nat.lt_of_mul_lt_mul_left h3

theorem Score.lt_of_le_of_lt {a b c : Score} (ha : 0 < a.den)
    (hab : Score.le a b) (hbc : Score.lt b c) : Score.lt a c := by
  unfold Score.lt Score.le at *
  have h1 : a.num * b.den * c.den ≤ b.num * a.den * c.den :=
    Nat.mul_le_mul_right _ hab
  have h2 : b.num * c.den * a.den < c.num * b.den * a.den :=
    mul_lt_mul_of_pos_right hbc ha
  have h3 : b.den * (a.num * c.den) < b.den * (c.num * a.den) := by
    calc b.den * (a.num * c.den) = a.num * b.den * c.den := by ring
    _ ≤ b.num * a.den * c.den := h1
    _ = b.num * c.den * a.den := by ring
    _ < c.num * b.den * a.den := h2
    _ = b.den * (c.num * a.den) := by ring
  exact Nat.lt_of_mul_lt_mul_left h3

theorem titleSimilarity_den_pos (a b : Option Str) : 0 < (titleSimilarity a b).den := by
  unfold titleSimilarity
  cases truthyVal a with
  | none => simp
  | some sa =>
    cases truthyVal b with
    | none => simp
    | some sb =>
      simp only []
      split
      · simp
      · rename_i h
        push_neg at h
        show 0 < (buildBigrams sa).length + (buildBigrams sb).length
        omega

theorem scoreOf_den_pos (E : List WorkspaceEntry) (t : Option Str) (i : Nat) :
    0 < (scoreOf E t i).den := by
  unfold scoreOf
  cases E.get? i with
  | none => simp
  | some c => simpa using titleSimilarity_den_pos t c.reference.title

/-- If a candidate's score is strictly above the zero score, the candidate
index is in range. -/
theorem scoreOf_pos_get {E : List WorkspaceEntry} {t : Option Str} {i : Nat}
    (h : Score.lt ⟨0, 1⟩ (scoreOf E t i)) : ∃ c, E.get? i = some c := by
  unfold scoreOf at h
  cases hg : E.get? i with
  | none => rw [hg] at h; simp [Score.lt] at h
  | some c => exact ⟨c, rfl⟩

/-! ### The fuzzy-scan specification -/

/-- Full characterization of the fuzzy scan fold: the final score dominates
the initial score and every candidate's score; and either the accumulator
never changed, or the scan returns the first candidate attaining the final
(strictly improved) score, every earlier candidate scoring strictly less. -/
theorem fuzzyScan_spec (E : List WorkspaceEntry) (t : Option Str) :
    ∀ (cands : List Nat) (b0 : Option Nat) (s0 : Score), 0 < s0.den →
      0 < (fuzzyScan E t cands (b0, s0)).2.den ∧
      Score.le s0 (fuzzyScan E t cands (b0, s0)).2 ∧
      (∀ j ∈ cands, Score.le (scoreOf E t j) (fuzzyScan E t cands (b0, s0)).2) ∧
      ((fuzzyScan E t cands (b0, s0)) = (b0, s0) ∨
        ∃ p i q, cands = p ++ i :: q ∧
          (fuzzyScan E t cands (b0, s0)).1 = some i ∧
          (fuzzyScan E t cands (b0, s0)).2 = scoreOf E t i ∧
          Score.lt s0 (fuzzyScan E t cands (b0, s0)).2 ∧
          ∀ j ∈ p, Score.lt (scoreOf E t j) (fuzzyScan E t cands (b0, s0)).2) := by
  intro cands
  induction cands with
  | nil =>
    intro b0 s0 h0
    exact ⟨h0, Score.le_refl s0, by simp, Or.inl rfl⟩
  | cons idx rest ih =>
    intro b0 s0 h0
    by_cases hlt : Score.lt s0 (scoreOf E t idx)
    · have hsc : 0 < (scoreOf E t idx).den := scoreOf_den_pos E t idx
      have heq : fuzzyScan E t (idx :: rest) (b0, s0) =
          fuzzyScan E t rest (some idx, scoreOf E t idx) := by
        simp [fuzzyScan, hlt]
      rcases ih (some idx) (scoreOf E t idx) hsc with ⟨hden, hle, hall, hdisj⟩
      rw [heq]
      refine ⟨hden, ?_, ?_, ?_⟩
      · exact Score.le_trans hsc (Score.le_of_lt hlt) hle
      · intro j hj
        rcases List.mem_cons.1 hj with h | h
        · subst h; exact hle
        · exact hall j h
      · rcases hdisj with h | ⟨p, i, q, hsplit, h1, h2, h3, h4⟩
        · refine Or.inr ⟨[], idx, rest, by simp, ?_, ?_, ?_, by simp⟩
          · rw [h]
          · rw [h]
          · rw [h]; exact hlt
        · refine Or.inr ⟨idx :: p, i, q, by simp [hsplit], h1, h2, ?_, ?_⟩
          · exact Score.lt_of_lt_of_le hden hlt (Score.le_of_lt h3)
          · intro j hj
            rcases List.mem_cons.1 hj with h | h
            · subst h; exact h3
            · exact h4 j h
    · have hge : Score.le (scoreOf E t idx) s0 := Score.le_of_not_lt hlt
      have heq : fuzzyScan E t (idx :: rest) (b0, s0) =
          fuzzyScan E t rest (b0, s0) := by
        simp [fuzzyScan, hlt]
      rcases ih b0 s0 h0 with ⟨hden, hle, hall, hdisj⟩
      rw [heq]
      refine ⟨hden, hle, ?_, ?_⟩
      · intro j hj
        rcases List.mem_cons.1 hj with h | h
        · subst h; exact Score.le_trans h0 hge hle
        · exact hall j h
      · rcases hdisj with h | ⟨p, i, q, hsplit, h1, h2, h3, h4⟩
        · exact Or.inl h
        · refine Or.inr ⟨idx :: p, i, q, by simp [hsplit], h1, h2, h3, ?_⟩
          intro j hj
          rcases List.mem_cons.1 hj with h | h
          · subst h; exact Score.lt_of_le_of_lt (scoreOf_den_pos E t j) hge h3
          · exact h4 j h

/-! ### hasKey / mergeRefs lemmas -/

theorem hasKey_of_mem {l : List WorkspaceSourceRef} {sr : WorkspaceSourceRef}
    (h : sr ∈ l) : hasKey l sr = true := by
  induction l with
  | nil => simp at h
  | cons s t ih =>
    rcases List.mem_cons.1 h with h1 | h1
    · subst h1; simp [hasKey]
    · unfold hasKey; split
      · rfl
      · exact ih h1

theorem hasKey_append (a b : List WorkspaceSourceRef) (sr : WorkspaceSourceRef) :
    hasKey (a ++ b) sr = (hasKey a sr || hasKey b sr) := by
  induction a with
  | nil => simp [hasKey]
  | cons s t ih =>
    by_cases hcond : s.paper_id = sr.paper_id ∧ s.source_index = sr.source_index
    · simp [hasKey, hcond]
    · simp [hasKey, hcond, ih]

theorem mergeRefs_mono {acc : List WorkspaceSourceRef} {sr : WorkspaceSourceRef}
    (h : hasKey acc sr = true) :
    ∀ b, hasKey (mergeRefs acc b) sr = true := by
  intro b
  induction b generalizing acc with
  | nil => exact h
  | cons x t ih =>
    unfold mergeRefs
    split
    · exact ih h
    · exact ih (by rw [hasKey_append, h]; rfl)

/-- Every (paper, index) key of either operand appears in the union. -/
theorem mergeRefs_covers :
    ∀ (b acc : List WorkspaceSourceRef) (sr : WorkspaceSourceRef),
      sr ∈ acc ++ b → hasKey (mergeRefs acc b) sr = true := by
  intro b
  induction b with
  | nil =>
    intro acc sr h
    exact hasKey_of_mem (by simpa using h)
  | cons x t ih =>
    intro acc sr h
    unfold mergeRefs
    split
    · rename_i hk
      rcases List.mem_append.1 h with h1 | h1
      · exact mergeRefs_mono (hasKey_of_mem h1) t
      · rcases List.mem_cons.1 h1 with h2 | h2
        · subst h2; exact mergeRefs_mono hk t
        · exact ih acc sr (List.mem_append.2 (Or.inr h2))
    · rcases List.mem_append.1 h with h1 | h1
      · exact ih (acc ++ [x]) sr (by simp [h1])
      · rcases List.mem_cons.1 h1 with h2 | h2
        · subst h2; exact ih (acc ++ [sr]) sr (by simp)
        · exact ih (acc ++ [x]) sr (by simp [h2])

/-- The union introduces no foreign source references. -/
theorem mergeRefs_sub :
    ∀ (b acc : List WorkspaceSourceRef) (x : WorkspaceSourceRef),
      x ∈ mergeRefs acc b → x ∈ acc ∨ x ∈ b := by
  intro b
  induction b with
  | nil => intro acc x h; exact Or.inl h
  | cons y t ih =>
    intro acc x h
    unfold mergeRefs at h
    split at h
    · rcases ih acc x h with h1 | h1
      · exact Or.inl h1
      · exact Or.inr (List.mem_cons_of_mem _ h1)
    · rcases ih (acc ++ [y]) x h with h1 | h1
      · rcases List.mem_append.1 h1 with h2 | h2
        · exact Or.inl h2
        · exact Or.inr (by simpa using Or.inl (by simpa using h2))
      · exact Or.inr (List.mem_cons_of_mem _ h1)

theorem mergeRefs_length_le :
    ∀ (b acc : List WorkspaceSourceRef),
      (mergeRefs acc b).length ≤ acc.length + b.length := by
  intro b
  induction b with
  | nil => intro acc; simp [mergeRefs]
  | cons y t ih =>
    intro acc
    unfold mergeRefs
    split
    · have := ih acc; simp only [List.length_cons]; omega
    · have h1 := ih (acc ++ [y])
      have hlen : (acc ++ [y]).length = acc.length + 1 := by simp
      rw [hlen] at h1
      simp only [List.length_cons]
      omega

/-! ### Field-preservation lemmas for the entry transformers -/

theorem mergeSourceRef_fields (e : WorkspaceEntry) (sr : WorkspaceSourceRef) (now : Nat) :
    (mergeSourceRef e sr now).workspace_id = e.workspace_id ∧
    (mergeSourceRef e sr now).id = e.id ∧
    (mergeSourceRef e sr now).dedup_status = e.dedup_status ∧
    (mergeSourceRef e sr now).conflict_with = e.conflict_with ∧
    (mergeSourceRef e sr now).reference = e.reference := by
  unfold mergeSourceRef; split <;> simp

theorem mergeSourceRef_occ {e : WorkspaceEntry} (sr : WorkspaceSourceRef) (now : Nat)
    (h : e.source_refs.length ≤ e.occurrence_count) :
    (mergeSourceRef e sr now).source_refs.length ≤
      (mergeSourceRef e sr now).occurrence_count := by
  unfold mergeSourceRef; split
  · exact h
  · simp; omega

theorem cleanupLoser_fields (lid now : Nat) (e : WorkspaceEntry) :
    (cleanupLoser lid now e).workspace_id = e.workspace_id ∧
    (cleanupLoser lid now e).id = e.id ∧
    (cleanupLoser lid now e).occurrence_count = e.occurrence_count ∧
    (cleanupLoser lid now e).source_refs = e.source_refs := by
  unfold cleanupLoser; split <;> simp

theorem cleanupLoser_of_ne {lid now : Nat} {e : WorkspaceEntry}
    (h : e.conflict_with ≠ some lid) : cleanupLoser lid now e = e := by
  unfold cleanupLoser; simp [h]

/-! ### mget / mset -/

theorem mget_mset {κ : Type} [DecidableEq κ] (m : List (κ × Nat)) (k : κ) (v : Nat)
    (k' : κ) : mget (mset m k v) k' = if k' = k then some v else mget m k' := by
  rfl

/-! ### The prebuild loop -/

theorem scanEntry_parts (wsId : Str) (st : BatchState) (i : Nat) (e : WorkspaceEntry) :
    (scanEntry wsId st i e).entries = st.entries ∧
    (scanEntry wsId st i e).result = st.result ∧
    (scanEntry wsId st i e).seed = st.seed := by
  unfold scanEntry
  split
  · exact ⟨rfl, rfl, rfl⟩
  · cases truthyVal (normalizeDoi e.reference.doi) <;>
      cases exactFingerprint e.reference <;> exact ⟨rfl, rfl, rfl⟩

theorem buildMapsGo_parts (wsId : Str) :
    ∀ (l : List WorkspaceEntry) (i : Nat) (st : BatchState),
      (buildMapsGo wsId l i st).entries = st.entries ∧
      (buildMapsGo wsId l i st).result = st.result ∧
      (buildMapsGo wsId l i st).seed = st.seed := by
  intro l
  induction l with
  | nil => intro i st; exact ⟨rfl, rfl, rfl⟩
  | cons e t ih =>
    intro i st
    have h1 := ih (i + 1) (scanEntry wsId st i e)
    have h2 := scanEntry_parts wsId st i e
    exact ⟨h1.1.trans h2.1, h1.2.1.trans h2.2.1, h1.2.2.trans h2.2.2⟩

theorem scanEntry_mapsActive {wsId : Str} {st : BatchState} {i : Nat} {e : WorkspaceEntry}
    (h : MapsActive wsId st) (he : st.entries.get? i = some e) :
    MapsActive wsId (scanEntry wsId st i e) := by
  obtain ⟨hc, hdm, hfm⟩ := h
  unfold scanEntry
  split
  · exact ⟨hc, hdm, hfm⟩
  · rename_i hws
    have hws' : e.workspace_id = wsId := by
      by_contra hcon; exact hws hcon
    cases hdv : truthyVal (normalizeDoi e.reference.doi) with
    | none =>
      cases hfp : exactFingerprint e.reference with
      | none =>
        refine ⟨?_, hdm, hfm⟩
        intro j hj
        rcases List.mem_append.1 hj with hj1 | hj1
        · exact hc j hj1
        · have : j = i := by simpa using hj1
          subst this
          exact ⟨e, he, hws', hdv⟩
      | some f =>
        refine ⟨?_, hdm, ?_⟩
        · intro j hj
          rcases List.mem_append.1 hj with hj1 | hj1
          · exact hc j hj1
          · have : j = i := by simpa using hj1
            subst this
            exact ⟨e, he, hws', hdv⟩
        · intro f' i' hm
          rw [mget_mset] at hm
          split at hm
          · have : i' = i := by injection hm.symm
            subst this
            exact ⟨e, he, hws'⟩
          · exact hfm f' i' hm
    | some d =>
      cases hfp : exactFingerprint e.reference with
      | none =>
        refine ⟨hc, ?_, hfm⟩
        intro d' i' hm
        rw [mget_mset] at hm
        split at hm
        · have : i' = i := by injection hm.symm
          subst this
          exact ⟨e, he, hws'⟩
        · exact hdm d' i' hm
      | some f =>
        refine ⟨hc, ?_, ?_⟩
        · intro d' i' hm
          rw [mget_mset] at hm
          split at hm
          · have : i' = i := by injection hm.symm
            subst this
            exact ⟨e, he, hws'⟩
          · exact hdm d' i' hm
        · intro f' i' hm
          rw [mget_mset] at hm
          split at hm
          · have : i' = i := by injection hm.symm
            subst this
            exact ⟨e, he, hws'⟩
          · exact hfm f' i' hm

theorem buildMapsGo_mapsActive (wsId : Str) :
    ∀ (l : List WorkspaceEntry) (i : Nat) (st : BatchState),
      (∀ k e, l.get? k = some e → st.entries.get? (i + k) = some e) →
      MapsActive wsId st → MapsActive wsId (buildMapsGo wsId l i st) := by
  intro l
  induction l with
  | nil => intro i st _ h; exact h
  | cons e t ih =>
    intro i st halign h
    have he : st.entries.get? i = some e := by
      simpa using halign 0 e (by simp)
    refine ih (i + 1) (scanEntry wsId st i e) ?_ (scanEntry_mapsActive h he)
    intro k e' hk
    rw [(scanEntry_parts wsId st i e).1]
    have hidx : i + 1 + k = i + (k + 1) := by omega
    rw [hidx]
    exact halign (k + 1) e' (by simpa using hk)

theorem initBatch_mapsActive (wsId : Str) (entries : List WorkspaceEntry) (seed : Nat) :
    MapsActive wsId (initBatch entries seed) := by
  refine ⟨?_, ?_, ?_⟩
  · intro j hj; simp [initBatch] at hj
  · intro d i hm; simp [initBatch, mget] at hm
  · intro f i hm; simp [initBatch, mget] at hm

/-! ### Case equations for processRef -/

theorem processRef_eq_merge_doi {st : BatchState} {r : Reference} {i : Nat}
    (hd : doiLookup st r = some i) (wsId pid plbl : Str) (now : Nat) :
    processRef wsId pid plbl now st r =
      mergeAt st i ⟨pid, plbl, r.index⟩ now := by
  unfold processRef
  rw [hd]

theorem processRef_eq_merge_fp {st : BatchState} {r : Reference} {i : Nat}
    (hd : doiLookup st r = none) (hf : fpLookup st r = some i)
    (wsId pid plbl : Str) (now : Nat) :
    processRef wsId pid plbl now st r =
      mergeAt st i ⟨pid, plbl, r.index⟩ now := by
  unfold processRef
  rw [hd, hf]

theorem processRef_eq_fuzzy_some {st : BatchState} {r : Reference} {i : Nat} {s : Score}
    (hd : doiLookup st r = none) (hf : fpLookup st r = none)
    (hfz : fuzzyScan st.entries r.title st.simCands (none, ⟨0, 1⟩) = (some i, s))
    (wsId pid plbl : Str) (now : Nat) :
    processRef wsId pid plbl now st r =
      (if Score.le AUTO_MERGE_THRESHOLD s then mergeAt st i ⟨pid, plbl, r.index⟩ now
       else pushNew st wsId now r ⟨pid, plbl, r.index⟩ (some i) s) := by
  unfold processRef
  rw [hd, hf, hfz]

theorem processRef_eq_fuzzy_none {st : BatchState} {r : Reference} {s : Score}
    (hd : doiLookup st r = none) (hf : fpLookup st r = none)
    (hfz : fuzzyScan st.entries r.title st.simCands (none, ⟨0, 1⟩) = (none, s))
    (wsId pid plbl : Str) (now : Nat) :
    processRef wsId pid plbl now st r =
      pushNew st wsId now r ⟨pid, plbl, r.index⟩ none s := by
  unfold processRef
  rw [hd, hf, hfz]

/-! ### Structure of the new-entry action -/

theorem pushNew_seed_gt (st : BatchState) (wsId : Str) (now : Nat) (r : Reference)
    (sr : WorkspaceSourceRef) (bIdx : Option Nat) (s : Score) :
    st.seed < (pushNew st wsId now r sr bIdx s).seed := by
  unfold pushNew
  cases exactFingerprint r <;> simp

/-- The shape of the entry the new-entry action appends, with the
back-reference / status classification in both the candidate and
no-candidate cases. -/
theorem pushNew_dedup_cases (st : BatchState) (wsId : Str) (now : Nat) (r : Reference)
    (sr : WorkspaceSourceRef) (bIdx : Option Nat) (s : Score) :
    ∃ ne, (pushNew st wsId now r sr bIdx s).entries = st.entries ++ [ne] ∧
      ne.id = st.seed ∧ ne.workspace_id = wsId ∧ ne.source_refs = [sr] ∧
      ne.occurrence_count = 1 ∧ ne.reference = r ∧
      ((∃ i c, bIdx = some i ∧ st.entries.get? i = some c ∧
          ne.conflict_with = some c.id ∧
          ne.dedup_status =
            (if Score.le CONFLICT_THRESHOLD s then .conflict else .unique)) ∨
        (ne.conflict_with = none ∧ ne.dedup_status = .unique ∧
          (bIdx = none ∨ ∃ i2, bIdx = some i2 ∧ st.entries.get? i2 = none))) := by
  cases hb : bIdx with
  | none =>
    refine ⟨{ id := st.seed, workspace_id := wsId, paper_id := sr.paper_id,
              source_index := r.index,
              ref_fingerprint := (match exactFingerprint r with
                                  | some f => f
                                  | none => Fp.manual (st.seed + 1)),
              dedup_status := .unique, reference := r, source_refs := [sr],
              occurrence_count := 1, conflict_with := none, resolved_at := none,
              created_at := now, updated_at := now },
      ?_, rfl, rfl, rfl, rfl, rfl, Or.inr ⟨rfl, rfl, Or.inl rfl⟩⟩
    cases hfp : exactFingerprint r <;> simp [pushNew, hfp]
  | some i =>
    cases hg : st.entries.get? i with
    | none =>
      refine ⟨{ id := st.seed, workspace_id := wsId, paper_id := sr.paper_id,
                source_index := r.index,
                ref_fingerprint := (match exactFingerprint r with
                                    | some f => f
                                    | none => Fp.manual (st.seed + 1)),
                dedup_status := .unique, reference := r, source_refs := [sr],
                occurrence_count := 1, conflict_with := none, resolved_at := none,
                created_at := now, updated_at := now },
        ?_, rfl, rfl, rfl, rfl, rfl, Or.inr ⟨rfl, rfl, Or.inr ⟨i, rfl, hg⟩⟩⟩
      have hg2 : st.entries[i]? = none := by
        rw [← List.get?_eq_getElem?]; exact hg
      cases hfp : exactFingerprint r <;> simp [pushNew, hg, hg2, hfp]
    | some c =>
      refine ⟨{ id := st.seed, workspace_id := wsId, paper_id := sr.paper_id,
                source_index := r.index,
                ref_fingerprint := (match exactFingerprint r with
                                    | some f => f
                                    | none => Fp.manual (st.seed + 1)),
                dedup_status := (if Score.le CONFLICT_THRESHOLD s then .conflict
                                 else .unique),
                reference := r, source_refs := [sr],
                occurrence_count := 1, conflict_with := some c.id,
                resolved_at := none, created_at := now, updated_at := now },
        ?_, rfl, rfl, rfl, rfl, rfl, Or.inl ⟨i, c, rfl, hg, rfl, rfl⟩⟩
      have hg2 : st.entries[i]? = some c := by
        rw [← List.get?_eq_getElem?]; exact hg
      cases hfp : exactFingerprint r <;>
        by_cases hle : Score.le CONFLICT_THRESHOLD s <;>
          simp [pushNew, hg, hg2, hfp, hle]

theorem mergeAt_parts (st : BatchState) (i : Nat) (sr : WorkspaceSourceRef) (now : Nat) :
    (mergeAt st i sr now).entries =
      listModify st.entries i (fun e => mergeSourceRef e sr now) ∧
    (mergeAt st i sr now).entries.length = st.entries.length ∧
    (mergeAt st i sr now).result.added = st.result.added ∧
    (mergeAt st i sr now).result.merged = st.result.merged + 1 ∧
    (mergeAt st i sr now).seed = st.seed ∧
    (mergeAt st i sr now).simCands = st.simCands ∧
    (mergeAt st i sr now).doiMap = st.doiMap ∧
    (mergeAt st i sr now).fpMap = st.fpMap := by
  exact ⟨rfl, listModify_length _ _ _, rfl, rfl, rfl, rfl, rfl, rfl⟩

theorem pushNew_counts (st : BatchState) (wsId : Str) (now : Nat) (r : Reference)
    (sr : WorkspaceSourceRef) (bIdx : Option Nat) (s : Score) :
    (pushNew st wsId now r sr bIdx s).entries.length = st.entries.length + 1 ∧
    (pushNew st wsId now r sr bIdx s).result.added = st.result.added + 1 ∧
    (pushNew st wsId now r sr bIdx s).result.merged = st.result.merged := by
  rcases pushNew_dedup_cases st wsId now r sr bIdx s with ⟨ne, hent, -⟩
  refine ⟨?_, rfl, rfl⟩
  rw [hent]; simp

/-- Each processed reference is counted exactly once (merged or added), a
merge keeps the entry list length, an addition grows it by one, and the
fresh-id counter never decreases. -/
theorem processRef_counts (wsId pid plbl : Str) (now : Nat) (st : BatchState)
    (r : Reference) :
    (processRef wsId pid plbl now st r).result.added +
        (processRef wsId pid plbl now st r).result.merged =
      st.result.added + st.result.merged + 1 ∧
    (processRef wsId pid plbl now st r).entries.length + st.result.added =
      st.entries.length + (processRef wsId pid plbl now st r).result.added ∧
    st.seed ≤ (processRef wsId pid plbl now st r).seed := by
  cases hd : doiLookup st r with
  | some i =>
    rw [processRef_eq_merge_doi hd wsId pid plbl now]
    rcases mergeAt_parts st i ⟨pid, plbl, r.index⟩ now with ⟨-, hlen, hadd, hmer, hseed, -⟩
    rw [hlen, hadd, hmer, hseed]
    omega
  | none =>
    cases hf : fpLookup st r with
    | some i =>
      rw [processRef_eq_merge_fp hd hf wsId pid plbl now]
      rcases mergeAt_parts st i ⟨pid, plbl, r.index⟩ now with ⟨-, hlen, hadd, hmer, hseed, -⟩
      rw [hlen, hadd, hmer, hseed]
      omega
    | none =>
      rcases hfz : fuzzyScan st.entries r.title st.simCands (none, ⟨0, 1⟩) with ⟨b, s⟩
      cases b with
      | some i =>
        rw [processRef_eq_fuzzy_some hd hf hfz wsId pid plbl now]
        by_cases hle : Score.le AUTO_MERGE_THRESHOLD s
        · rw [if_pos hle]
          rcases mergeAt_parts st i ⟨pid, plbl, r.index⟩ now with ⟨-, hlen, hadd, hmer, hseed, -⟩
          rw [hlen, hadd, hmer, hseed]
          omega
        · rw [if_neg hle]
          rcases pushNew_counts st wsId now r ⟨pid, plbl, r.index⟩ (some i) s with ⟨hlen, hadd, hmer⟩
          have hs := pushNew_seed_gt st wsId now r ⟨pid, plbl, r.index⟩ (some i) s
          rw [hlen, hadd, hmer]
          omega
      | none =>
        rw [processRef_eq_fuzzy_none hd hf hfz wsId pid plbl now]
        rcases pushNew_counts st wsId now r ⟨pid, plbl, r.index⟩ none s with ⟨hlen, hadd, hmer⟩
        have hs := pushNew_seed_gt st wsId now r ⟨pid, plbl, r.index⟩ none s
        rw [hlen, hadd, hmer]
        omega

/-! ### Preservation of the entry-level invariants through one batch -/

theorem entriesInv_mono {wsId : Str} {l : List WorkspaceEntry} {n m : Nat}
    (h : EntriesInv wsId n l) (hnm : n ≤ m) : EntriesInv wsId m l :=
  ⟨h.1, h.2.1, fun e he => Nat.lt_of_lt_of_le (h.2.2.1 e he) hnm, h.2.2.2⟩

theorem mergeAt_entriesInv {wsId : Str} {n : Nat} {st : BatchState}
    (h : EntriesInv wsId n st.entries) (i : Nat) (sr : WorkspaceSourceRef) (now : Nat) :
    EntriesInv wsId n (mergeAt st i sr now).entries := by
  obtain ⟨hws, hocc, hids, hcf⟩ := h
  show EntriesInv wsId n (listModify st.entries i (fun e => mergeSourceRef e sr now))
  refine ⟨?_, ?_, ?_, ?_⟩
  · intro e he
    rcases mem_listModify he with h1 | ⟨a, ha, rfl⟩
    · exact hws e h1
    · rw [(mergeSourceRef_fields a sr now).1]
      exact hws a (mem_of_get? ha)
  · intro e he
    rcases mem_listModify he with h1 | ⟨a, ha, rfl⟩
    · exact hocc e h1
    · exact mergeSourceRef_occ sr now (hocc a (mem_of_get? ha))
  · intro e he
    rcases mem_listModify he with h1 | ⟨a, ha, rfl⟩
    · exact hids e h1
    · rw [(mergeSourceRef_fields a sr now).2.1]
      exact hids a (mem_of_get? ha)
  · intro e he hst
    rcases mem_listModify he with h1 | ⟨a, ha, rfl⟩
    · rcases hcf e h1 hst with ⟨cid, hcw, hne, he2⟩
      refine ⟨cid, hcw, hne, ?_⟩
      exact listModify_exists (i := i) (f := fun e => mergeSourceRef e sr now)
        (fun x => x.id = cid)
        (fun a' hP => by
          show (mergeSourceRef a' sr now).id = cid
          rw [(mergeSourceRef_fields a' sr now).2.1]; exact hP) he2
    · have ha' := mem_of_get? ha
      have hsta : a.dedup_status = .conflict := by
        rw [← (mergeSourceRef_fields a sr now).2.2.1]; exact hst
      rcases hcf a ha' hsta with ⟨cid, hcw, hne, he2⟩
      refine ⟨cid, ?_, ?_, ?_⟩
      · rw [(mergeSourceRef_fields a sr now).2.2.2.1]; exact hcw
      · rw [(mergeSourceRef_fields a sr now).2.1]; exact hne
      · exact listModify_exists (i := i) (f := fun e => mergeSourceRef e sr now)
          (fun x => x.id = cid)
          (fun a' hP => by
            show (mergeSourceRef a' sr now).id = cid
            rw [(mergeSourceRef_fields a' sr now).2.1]; exact hP) he2

theorem pushNew_entriesInv {wsId : Str} {st : BatchState}
    (h : EntriesInv wsId st.seed st.entries) (now : Nat) (r : Reference)
    (sr : WorkspaceSourceRef) (bIdx : Option Nat) (s : Score) :
    EntriesInv wsId (pushNew st wsId now r sr bIdx s).seed
      (pushNew st wsId now r sr bIdx s).entries := by
  obtain ⟨hws, hocc, hids, hcf⟩ := h
  have hseed := pushNew_seed_gt st wsId now r sr bIdx s
  rcases pushNew_dedup_cases st wsId now r sr bIdx s with
    ⟨ne, hent, hid, hnws, hrefs, hocc1, -, hcase⟩
  rw [hent]
  refine ⟨?_, ?_, ?_, ?_⟩
  · intro e he
    rcases List.mem_append.1 he with h1 | h1
    · exact hws e h1
    · have : e = ne := by simpa using h1
      subst this; exact hnws
  · intro e he
    rcases List.mem_append.1 he with h1 | h1
    · exact hocc e h1
    · have : e = ne := by simpa using h1
      subst this; rw [hrefs, hocc1]; simp
  · intro e he
    rcases List.mem_append.1 he with h1 | h1
    · exact Nat.lt_of_lt_of_le (hids e h1) (Nat.le_of_lt hseed)
    · have : e = ne := by simpa using h1
      subst this; rw [hid]; exact hseed
  · intro e he hst
    rcases List.mem_append.1 he with h1 | h1
    · rcases hcf e h1 hst with ⟨cid, hcw, hne2, e2, he2, hid2⟩
      exact ⟨cid, hcw, hne2, e2, List.mem_append.2 (Or.inl he2), hid2⟩
    · have : e = ne := by simpa using h1
      subst this
      rcases hcase with ⟨i, c, -, hgc, hcw, hdst⟩ | ⟨-, hdst, -⟩
      · have hcmem := mem_of_get? hgc
        have hclt : c.id < st.seed := hids c hcmem
        refine ⟨c.id, hcw, ?_, c, List.mem_append.2 (Or.inl hcmem), rfl⟩
        rw [hid]; omega
      · rw [hdst] at hst; cases hst

theorem processRef_entriesInv (wsId pid plbl : Str) (now : Nat) (st : BatchState)
    (r : Reference) (h : EntriesInv wsId st.seed st.entries) :
    EntriesInv wsId (processRef wsId pid plbl now st r).seed
      (processRef wsId pid plbl now st r).entries := by
  cases hd : doiLookup st r with
  | some i =>
    rw [processRef_eq_merge_doi hd wsId pid plbl now]
    exact mergeAt_entriesInv h i ⟨pid, plbl, r.index⟩ now
  | none =>
    cases hf : fpLookup st r with
    | some i =>
      rw [processRef_eq_merge_fp hd hf wsId pid plbl now]
      exact mergeAt_entriesInv h i ⟨pid, plbl, r.index⟩ now
    | none =>
      rcases hfz : fuzzyScan st.entries r.title st.simCands (none, ⟨0, 1⟩) with ⟨b, s⟩
      cases b with
      | some i =>
        rw [processRef_eq_fuzzy_some hd hf hfz wsId pid plbl now]
        by_cases hle : Score.le AUTO_MERGE_THRESHOLD s
        · rw [if_pos hle]
          exact mergeAt_entriesInv h i ⟨pid, plbl, r.index⟩ now
        · rw [if_neg hle]
          exact pushNew_entriesInv h now r ⟨pid, plbl, r.index⟩ (some i) s
      | none =>
        rw [processRef_eq_fuzzy_none hd hf hfz wsId pid plbl now]
        exact pushNew_entriesInv h now r ⟨pid, plbl, r.index⟩ none s

theorem foldl_entriesInv (wsId pid plbl : Str) (now : Nat) :
    ∀ (l : List Reference) (st : BatchState),
      EntriesInv wsId st.seed st.entries →
      EntriesInv wsId (l.foldl (processRef wsId pid plbl now) st).seed
        (l.foldl (processRef wsId pid plbl now) st).entries := by
  intro l
  induction l with
  | nil => intro st h; exact h
  | cons r t ih =>
    intro st h
    exact ih (processRef wsId pid plbl now st r)
      (processRef_entriesInv wsId pid plbl now st r h)

theorem foldl_counts (wsId pid plbl : Str) (now : Nat) :
    ∀ (l : List Reference) (st : BatchState),
      (l.foldl (processRef wsId pid plbl now) st).result.added +
          (l.foldl (processRef wsId pid plbl now) st).result.merged =
        st.result.added + st.result.merged + l.length ∧
      (l.foldl (processRef wsId pid plbl now) st).entries.length + st.result.added =
        st.entries.length + (l.foldl (processRef wsId pid plbl now) st).result.added := by
  intro l
  induction l with
  | nil => intro st; exact ⟨by simp, rfl⟩
  | cons r t ih =>
    intro st
    rcases ih (processRef wsId pid plbl now st r) with ⟨ha, hb⟩
    rcases processRef_counts wsId pid plbl now st r with ⟨hc, hdd, -⟩
    constructor
    · simp only [List.foldl_cons, List.length_cons]
      omega
    · simp only [List.foldl_cons]
      omega

/-- The engine-maintained invariants are preserved by `addReferences`, with
the fresh-id bound advanced to the returned counter. -/
theorem addReferences_storeInv {store : WorkspaceStoreV2} {n : Nat}
    (h : StoreInv store n) (input : AddReferencesInput) (now : Nat) :
    StoreInv (addReferences store input now n).1 (addReferences store input now n).2.2 := by
  obtain ⟨hactive, hinv⟩ := h
  have hparts := buildMapsGo_parts store.active_workspace_id store.entries 0
    (initBatch store.entries n)
  constructor
  · exact hactive
  · have hinv0 : EntriesInv store.active_workspace_id
        (buildMapsGo store.active_workspace_id store.entries 0
          (initBatch store.entries n)).seed
        (buildMapsGo store.active_workspace_id store.entries 0
          (initBatch store.entries n)).entries := by
      rw [hparts.1, hparts.2.2]
      show EntriesInv store.active_workspace_id (initBatch store.entries n).seed _
      rw [hactive]
      exact hinv
    have hf := foldl_entriesInv store.active_workspace_id input.paperId input.paperLabel
      now (input.references.filter qualifies) _ hinv0
    rw [← hactive]
    exact hf

/-! ### Preservation of the invariants by resolveConflict and clearWorkspace -/

theorem clearEntry_fields (e : WorkspaceEntry) (now : Nat) :
    (clearEntry e now).workspace_id = e.workspace_id ∧
    (clearEntry e now).id = e.id ∧
    (clearEntry e now).occurrence_count = e.occurrence_count ∧
    (clearEntry e now).source_refs = e.source_refs ∧
    (clearEntry e now).dedup_status = .unique ∧
    (clearEntry e now).conflict_with = none :=
  ⟨rfl, rfl, rfl, rfl, rfl, rfl⟩

theorem get?_of_mem' {α : Type} {l : List α} {a : α} (h : a ∈ l) :
    ∃ n, l.get? n = some a := by
  induction l with
  | nil => simp at h
  | cons x t ih =>
    rcases List.mem_cons.1 h with h1 | h1
    · exact ⟨0, by simp [h1]⟩
    · rcases ih h1 with ⟨n, hn⟩
      exact ⟨n + 1, by simpa using hn⟩

/-- Setting position `i` to an id-preserving replacement keeps the existence
of an entry with any given id. -/
theorem listSet_exists_id {l : List WorkspaceEntry} {i : Nat} {a v : WorkspaceEntry}
    (ha : l.get? i = some a) (hid : v.id = a.id) {cid : Nat}
    (h : ∃ e2 ∈ l, e2.id = cid) : ∃ e2 ∈ listSet l i v, e2.id = cid := by
  rcases h with ⟨e2, he2, hid2⟩
  rcases get?_of_mem' he2 with ⟨p, hp⟩
  by_cases hpi : p = i
  · subst hpi
    have ha2 : e2 = a := by rw [hp] at ha; injection ha
    refine ⟨v, ?_, by rw [hid, ← ha2, hid2]⟩
    show v ∈ listModify l p (fun _ => v)
    exact mem_of_get? (get?_listModify_self (fun _ => v) hp)
  · refine ⟨e2, ?_, hid2⟩
    show e2 ∈ listModify l i (fun _ => v)
    have hget : (listModify l i (fun _ => v)).get? p = some e2 := by
      rw [get?_listModify_ne l i (fun _ => v) hpi]; exact hp
    exact mem_of_get? hget

theorem entriesInv_listSet_clear {wsId : Str} {n : Nat} {l : List WorkspaceEntry}
    {i : Nat} {a : WorkspaceEntry} (hinv : EntriesInv wsId n l)
    (ha : l.get? i = some a) (now : Nat) :
    EntriesInv wsId n (listSet l i (clearEntry a now)) := by
  obtain ⟨hws, hocc, hids, hcf⟩ := hinv
  have hamem := mem_of_get? ha
  refine ⟨?_, ?_, ?_, ?_⟩
  · intro e he
    rcases mem_listModify he with h1 | ⟨b, hb, rfl⟩
    · exact hws e h1
    · exact hws a hamem
  · intro e he
    rcases mem_listModify he with h1 | ⟨b, hb, rfl⟩
    · exact hocc e h1
    · exact hocc a hamem
  · intro e he
    rcases mem_listModify he with h1 | ⟨b, hb, rfl⟩
    · exact hids e h1
    · exact hids a hamem
  · intro e he hst
    rcases mem_listModify he with h1 | ⟨b, hb, rfl⟩
    · rcases hcf e h1 hst with ⟨cid, hcw, hne, he2⟩
      exact ⟨cid, hcw, hne, listSet_exists_id (v := clearEntry a now) ha rfl he2⟩
    · exact absurd hst (by simp [clearEntry])

/-- The entry invariants survive the merge resolution's
set / splice / cleanup pipeline. -/
theorem entriesInv_mergeShape {wsId : Str} {n : Nat} {l : List WorkspaceEntry}
    {wIdx lIdx : Nat} {winner loser : WorkspaceEntry} (hinv : EntriesInv wsId n l)
    (hw : l.get? wIdx = some winner) (hl : l.get? lIdx = some loser)
    (hne : wIdx ≠ lIdx) (now : Nat) :
    EntriesInv wsId n
      ((listEraseAt (listSet l wIdx (mergedWinner winner loser now)) lIdx).map
        (cleanupLoser loser.id now)) := by
  obtain ⟨hws, hocc, hids, hcf⟩ := hinv
  have hwmem := mem_of_get? hw
  have hlmem := mem_of_get? hl
  have hmem1 : ∀ x, x ∈ listEraseAt (listSet l wIdx (mergedWinner winner loser now)) lIdx →
      x = mergedWinner winner loser now ∨ x ∈ l := by
    intro x hx
    rcases mem_listModify (mem_listEraseAt hx) with h1 | ⟨b, hb, rfl⟩
    · exact Or.inr h1
    · exact Or.inl rfl
  refine ⟨?_, ?_, ?_, ?_⟩
  · intro e he
    rcases List.mem_map.1 he with ⟨x, hx, rfl⟩
    rw [(cleanupLoser_fields loser.id now x).1]
    rcases hmem1 x hx with h1 | h1
    · subst h1
      show winner.workspace_id = wsId
      exact hws winner hwmem
    · exact hws x h1
  · intro e he
    rcases List.mem_map.1 he with ⟨x, hx, rfl⟩
    rw [(cleanupLoser_fields loser.id now x).2.2.2,
        (cleanupLoser_fields loser.id now x).2.2.1]
    rcases hmem1 x hx with h1 | h1
    · subst h1
      show (mergeRefs winner.source_refs loser.source_refs).length ≤
        winner.occurrence_count + loser.occurrence_count
      have h2 := mergeRefs_length_le loser.source_refs winner.source_refs
      have h3 := hocc winner hwmem
      have h4 := hocc loser hlmem
      omega
    · exact hocc x h1
  · intro e he
    rcases List.mem_map.1 he with ⟨x, hx, rfl⟩
    rw [(cleanupLoser_fields loser.id now x).2.1]
    rcases hmem1 x hx with h1 | h1
    · subst h1
      show winner.id < n
      exact hids winner hwmem
    · exact hids x h1
  · intro e he hst
    rcases List.mem_map.1 he with ⟨x, hx, rfl⟩
    by_cases hxl : x.conflict_with = some loser.id
    · exact absurd hst (by simp [cleanupLoser, hxl])
    · rw [cleanupLoser_of_ne hxl] at hst ⊢
      have hxmem : x ∈ l := by
        rcases hmem1 x hx with h1 | h1
        · subst h1
          exact absurd hst (by simp [mergedWinner])
        · exact h1
      rcases hcf x hxmem hst with ⟨cid, hcw, hcne, e2, he2, hid2⟩
      have hcidl : cid ≠ loser.id := by
        intro hc; subst hc; exact hxl hcw
      refine ⟨cid, hcw, hcne, ?_⟩
      rcases get?_of_mem' he2 with ⟨p, hp⟩
      have hpl : p ≠ lIdx := by
        intro hc; subst hc
        rw [hp] at hl
        have he3 : e2 = loser := by injection hl
        have hc2 : cid = loser.id := by rw [← hid2, he3]
        exact hcidl hc2
      have hp1 : ∃ y, (listSet l wIdx (mergedWinner winner loser now)).get? p = some y ∧
          y.id = cid := by
        by_cases hpw : p = wIdx
        · subst hpw
          have he4 : e2 = winner := by rw [hp] at hw; injection hw
          refine ⟨mergedWinner winner loser now, ?_, ?_⟩
          · show (listModify l p (fun _ => mergedWinner winner loser now)).get? p =
              some (mergedWinner winner loser now)
            exact get?_listModify_self (fun _ => mergedWinner winner loser now) hp
          · show winner.id = cid
            rw [← he4]; exact hid2
        · refine ⟨e2, ?_, hid2⟩
          show (listModify l wIdx (fun _ => mergedWinner winner loser now)).get? p =
            some e2
          rw [get?_listModify_ne l wIdx (fun _ => mergedWinner winner loser now) hpw]
          exact hp
      rcases hp1 with ⟨y, hy, hyid⟩
      have hp2 : ∃ q, (listEraseAt (listSet l wIdx (mergedWinner winner loser now)) lIdx).get? q = some y := by
        rcases Nat.lt_or_ge p lIdx with hpl2 | hpl2
        · exact ⟨p, by rw [get?_listEraseAt_lt _ hpl2]; exact hy⟩
        · have hpgt : lIdx < p := by omega
          refine ⟨p - 1, ?_⟩
          rw [get?_listEraseAt_ge _ (by omega)]
          have : p - 1 + 1 = p := by omega
          rw [this]
          exact hy
      rcases hp2 with ⟨q, hq⟩
      refine ⟨cleanupLoser loser.id now y, List.mem_map_of_mem _ (mem_of_get? hq), ?_⟩
      rw [(cleanupLoser_fields loser.id now y).2.1]
      exact hyid

theorem keepBothEntries_entriesInv {wsId2 : Str} {n : Nat}
    {entries : List WorkspaceEntry} (hinv : EntriesInv wsId2 n entries)
    {entryIdx : Nat} {entry : WorkspaceEntry}
    (hget : entries.get? entryIdx = some entry)
    (wsId : Str) (entryId : Nat) (now : Nat) :
    EntriesInv wsId2 n (keepBothEntries entries wsId entryId entryIdx entry now) := by
  unfold keepBothEntries
  cases hci : conflictIdxOf entries wsId entry with
  | none => exact entriesInv_listSet_clear hinv hget now
  | some j =>
    dsimp only
    cases hget2 : (listSet entries entryIdx (clearEntry entry now)).get? j with
    | none => exact entriesInv_listSet_clear hinv hget now
    | some other =>
      dsimp only
      by_cases hrec : other.dedup_status = .conflict ∧ other.conflict_with = some entryId
      · rw [if_pos hrec]
        exact entriesInv_listSet_clear (entriesInv_listSet_clear hinv hget now) hget2 now
      · rw [if_neg hrec]
        exact entriesInv_listSet_clear hinv hget now

theorem mergeEntries_entriesInv {wsId2 : Str} {n : Nat}
    {entries : List WorkspaceEntry} (hinv : EntriesInv wsId2 n entries)
    {entryIdx : Nat} {entry : WorkspaceEntry}
    (hget : entries.get? entryIdx = some entry)
    (hst : entry.dedup_status = .conflict) (wsId : Str) (now : Nat) :
    EntriesInv wsId2 n (mergeEntries entries wsId entryIdx entry now) := by
  unfold mergeEntries
  cases hci : conflictIdxOf entries wsId entry with
  | none => exact entriesInv_listSet_clear hinv hget now
  | some j =>
    dsimp only
    cases hgetj : entries.get? j with
    | none => exact hinv
    | some o =>
      dsimp only
      have hij : entryIdx ≠ j := by
        rcases hinv.2.2.2 entry (mem_of_get? hget) hst with ⟨cid, hcw, hcne, -⟩
        rw [conflictIdxOf, hcw] at hci
        dsimp only at hci
        rcases findIndex_some hci with ⟨b, hb, hpb⟩
        have hob : o = b := by rw [hgetj] at hb; injection hb
        simp only [entryPred, decide_eq_true_eq] at hpb
        have hp1 : b.id = cid := hpb.1
        intro hc
        rw [hc, hgetj] at hget
        have ho2 : o = entry := by injection hget
        apply hcne
        rw [← hp1, ← hob, ho2]
      by_cases hrank : rank entry < rank o
      · rw [if_pos hrank]
        dsimp only
        rw [hgetj, hget]
        dsimp only
        exact entriesInv_mergeShape hinv hgetj hget (fun hc => hij hc.symm) now
      · rw [if_neg hrank]
        dsimp only
        rw [hget, hgetj]
        dsimp only
        exact entriesInv_mergeShape hinv hget hgetj hij now

theorem resolveConflict_storeInv {store : WorkspaceStoreV2} {n : Nat}
    (h : StoreInv store n) (entryId : Nat) (res : ConflictResolution) (now : Nat) :
    StoreInv (resolveConflict store entryId res now) n := by
  obtain ⟨hactive, hinv⟩ := h
  unfold resolveConflict
  cases hfind : findIndex (entryPred store.active_workspace_id entryId) store.entries with
  | none => exact ⟨hactive, hinv⟩
  | some i =>
    dsimp only
    cases hget : store.entries.get? i with
    | none => exact ⟨hactive, hinv⟩
    | some e =>
      dsimp only
      by_cases hst : e.dedup_status = DedupStatus.conflict
      · rw [if_pos hst]
        refine ⟨hactive, ?_⟩
        cases res with
        | keep_both =>
          exact keepBothEntries_entriesInv hinv hget
            store.active_workspace_id entryId now
        | merge =>
          exact mergeEntries_entriesInv hinv hget hst store.active_workspace_id now
      · rw [if_neg hst]
        exact ⟨hactive, hinv⟩

theorem clearWorkspace_storeInv {store : WorkspaceStoreV2} {n : Nat}
    (h : StoreInv store n) (now : Nat) :
    StoreInv (clearWorkspace store now) n := by
  obtain ⟨hactive, hinv⟩ := h
  refine ⟨hactive, ?_⟩
  have hempty : store.entries.filter
      (fun e => decide (e.workspace_id ≠ store.active_workspace_id)) = [] := by
    rw [List.filter_eq_nil_iff]
    intro a ha
    simp [hinv.1 a ha, hactive]
  show EntriesInv DEFAULT_WORKSPACE_ID n (store.entries.filter
      (fun e => decide (e.workspace_id ≠ store.active_workspace_id)))
  rw [hempty]
  exact ⟨by simp, by simp, by simp, by simp⟩

theorem createEmptyStore_storeInv (now : Nat) : StoreInv (createEmptyStore now) 0 :=
  ⟨rfl, by simp [createEmptyStore, EntriesInv]⟩

/-- Every reachable store satisfies the engine invariants. -/
theorem reachable_storeInv {s : WorkspaceStoreV2} {n : Nat} (h : Reachable s n) :
    StoreInv s n := by
  induction h with
  | empty now => exact createEmptyStore_storeInv now
  | add h input now ih => exact addReferences_storeInv ih input now
  | resolve h entryId res now ih => exact resolveConflict_storeInv ih entryId res now
  | clear h now ih => exact clearWorkspace_storeInv ih now

/-! ### Frame and candidate-list preservation through one batch -/

theorem get?_listModify_pres {α : Type} {l : List α} {i j : Nat} {e : α}
    (f : α → α) (hget : l.get? j = some e) :
    ∃ e2, (listModify l i f).get? j = some e2 ∧ (e2 = e ∨ e2 = f e) := by
  by_cases hji : j = i
  · subst hji
    exact ⟨f e, get?_listModify_self f hget, Or.inr rfl⟩
  · exact ⟨e, by rw [get?_listModify_ne l i f hji]; exact hget, Or.inl rfl⟩

theorem mergeAt_mapsActive {wsId : Str} {st : BatchState} (h : MapsActive wsId st)
    (i : Nat) (sr : WorkspaceSourceRef) (now : Nat) :
    MapsActive wsId (mergeAt st i sr now) := by
  obtain ⟨hc, hdm, hfm⟩ := h
  have hlift : ∀ j e, st.entries.get? j = some e →
      ∃ e2, (mergeAt st i sr now).entries.get? j = some e2 ∧
        e2.workspace_id = e.workspace_id ∧ e2.reference = e.reference := by
    intro j e hget
    rcases get?_listModify_pres (i := i) (fun x => mergeSourceRef x sr now) hget with
      ⟨e2, hg2, hcase⟩
    refine ⟨e2, hg2, ?_⟩
    rcases hcase with h1 | h1
    · subst h1; exact ⟨rfl, rfl⟩
    · subst h1
      exact ⟨(mergeSourceRef_fields e sr now).1, (mergeSourceRef_fields e sr now).2.2.2.2⟩
  refine ⟨?_, ?_, ?_⟩
  · intro j hj
    rcases hc j hj with ⟨e, hget, hws, hdoi⟩
    rcases hlift j e hget with ⟨e2, hg2, hws2, href2⟩
    exact ⟨e2, hg2, by rw [hws2]; exact hws, by rw [href2]; exact hdoi⟩
  · intro d j hm
    rcases hdm d j hm with ⟨e, hget, hws⟩
    rcases hlift j e hget with ⟨e2, hg2, hws2, -⟩
    exact ⟨e2, hg2, by rw [hws2]; exact hws⟩
  · intro f j hm
    rcases hfm f j hm with ⟨e, hget, hws⟩
    rcases hlift j e hget with ⟨e2, hg2, hws2, -⟩
    exact ⟨e2, hg2, by rw [hws2]; exact hws⟩

theorem pushNew_mapsActive {wsId : Str} {st : BatchState} (h : MapsActive wsId st)
    (now : Nat) (r : Reference) (sr : WorkspaceSourceRef) (bIdx : Option Nat)
    (s : Score) : MapsActive wsId (pushNew st wsId now r sr bIdx s) := by
  obtain ⟨hc, hdm, hfm⟩ := h
  rcases pushNew_dedup_cases st wsId now r sr bIdx s with
    ⟨ne, hent, -, hnws, -, -, hneref, -⟩
  have hlift : ∀ j e, st.entries.get? j = some e →
      (pushNew st wsId now r sr bIdx s).entries.get? j = some e := by
    intro j e hget
    rw [hent]
    rw [get?_append_left (get?_some_lt hget)]
    exact hget
  have hnew : (pushNew st wsId now r sr bIdx s).entries.get? st.entries.length = some ne := by
    rw [hent]
    exact get?_append_len st.entries ne
  have hcands : (pushNew st wsId now r sr bIdx s).simCands = st.simCands ∨
      ((pushNew st wsId now r sr bIdx s).simCands = st.simCands ++ [st.entries.length] ∧
        truthyVal (normalizeDoi r.doi) = none) := by
    unfold pushNew
    cases hdv : truthyVal (normalizeDoi r.doi) with
    | none => exact Or.inr ⟨rfl, rfl⟩
    | some d => exact Or.inl rfl
  have hdoi2 : ∀ d j, mget (pushNew st wsId now r sr bIdx s).doiMap d = some j →
      mget st.doiMap d = some j ∨ j = st.entries.length := by
    intro d j hm
    revert hm
    unfold pushNew
    cases hdv : truthyVal (normalizeDoi r.doi) with
    | none => intro hm; exact Or.inl hm
    | some d2 =>
      intro hm
      rw [mget_mset] at hm
      split at hm
      · right; injection hm.symm
      · exact Or.inl hm
  have hfp2 : ∀ f j, mget (pushNew st wsId now r sr bIdx s).fpMap f = some j →
      mget st.fpMap f = some j ∨ j = st.entries.length := by
    intro f j hm
    have : mget (mset st.fpMap
        (match exactFingerprint r with
         | some f2 => (f2, st.seed + 1)
         | none => (Fp.manual (st.seed + 1), st.seed + 2)).1 st.entries.length) f = some j := hm
    rw [mget_mset] at this
    split at this
    · right; injection this.symm
    · exact Or.inl this
  refine ⟨?_, ?_, ?_⟩
  · intro j hj
    rcases hcands with hcs | ⟨hcs, hdv⟩
    · rw [hcs] at hj
      rcases hc j hj with ⟨e, hget, hws, hdoi⟩
      exact ⟨e, hlift j e hget, hws, hdoi⟩
    · rw [hcs] at hj
      rcases List.mem_append.1 hj with hj1 | hj1
      · rcases hc j hj1 with ⟨e, hget, hws, hdoi⟩
        exact ⟨e, hlift j e hget, hws, hdoi⟩
      · have hjl : j = st.entries.length := by simpa using hj1
        subst hjl
        refine ⟨ne, hnew, hnws, ?_⟩
        rw [hneref]
        exact hdv
  · intro d j hm
    rcases hdoi2 d j hm with h1 | h1
    · rcases hdm d j h1 with ⟨e, hget, hws⟩
      exact ⟨e, hlift j e hget, hws⟩
    · subst h1
      exact ⟨ne, hnew, hnws⟩
  · intro f j hm
    rcases hfp2 f j hm with h1 | h1
    · rcases hfm f j h1 with ⟨e, hget, hws⟩
      exact ⟨e, hlift j e hget, hws⟩
    · subst h1
      exact ⟨ne, hnew, hnws⟩

theorem filter_listModify {α : Type} (p : α → Bool) :
    ∀ (l : List α) (i : Nat) (f : α → α),
      (∀ a, l.get? i = some a → p a = false) → (∀ a, p (f a) = p a) →
      (listModify l i f).filter p = l.filter p := by
  intro l
  induction l with
  | nil => intro i f _ _; rfl
  | cons x t ih =>
    intro i f hp hf
    cases i with
    | zero =>
      have hx : p x = false := hp x (by simp)
      have hfx : p (f x) = false := by rw [hf]; exact hx
      show (f x :: t).filter p = (x :: t).filter p
      rw [List.filter_cons, List.filter_cons, hx, hfx]
      simp
    | succ n =>
      show (x :: listModify t n f).filter p = (x :: t).filter p
      rw [List.filter_cons, List.filter_cons]
      have ht : (listModify t n f).filter p = t.filter p :=
        ih n f (fun a ha => hp a (by simpa using ha)) hf
      rw [ht]

theorem filter_listEraseAt {α : Type} (p : α → Bool) :
    ∀ (l : List α) (k : Nat) (a : α),
      l.get? k = some a → p a = false →
      (listEraseAt l k).filter p = l.filter p := by
  intro l
  induction l with
  | nil => intro k a h _; simp [List.get?] at h
  | cons x t ih =>
    intro k a h hp
    cases k with
    | zero =>
      have hxa : x = a := by simpa using h
      subst hxa
      show t.filter p = (x :: t).filter p
      rw [List.filter_cons, hp]
      simp
    | succ n =>
      show (x :: listEraseAt t n).filter p = (x :: t).filter p
      rw [List.filter_cons, List.filter_cons, ih n a (by simpa using h) hp]

theorem filter_map_fix {α : Type} (p : α → Bool) (f : α → α) :
    ∀ l : List α, (∀ x ∈ l, p x = true → f x = x) → (∀ x, p (f x) = p x) →
      (l.map f).filter p = l.filter p := by
  intro l
  induction l with
  | nil => intro _ _; rfl
  | cons x t ih =>
    intro hfix hp
    show (f x :: t.map f).filter p = (x :: t).filter p
    rw [List.filter_cons, List.filter_cons, hp x]
    have ht := ih (fun y hy => hfix y (List.mem_cons_of_mem _ hy)) hp
    cases hx : p x with
    | false => simpa [hx] using ht
    | true =>
      have := hfix x (by simp) hx
      simp [hx, this, ht]

/-! ### Extraction lemmas for the lookups -/

theorem doiLookup_some {st : BatchState} {r : Reference} {i : Nat}
    (h : doiLookup st r = some i) :
    ∃ d, truthyVal (normalizeDoi r.doi) = some d ∧ mget st.doiMap d = some i := by
  revert h
  unfold doiLookup
  cases truthyVal (normalizeDoi r.doi) with
  | none => intro h; cases h
  | some d => intro h; exact ⟨d, rfl, h⟩

theorem fpLookup_some {st : BatchState} {r : Reference} {i : Nat}
    (h : fpLookup st r = some i) :
    ∃ f, exactFingerprint r = some f ∧ mget st.fpMap f = some i := by
  revert h
  unfold fpLookup
  cases exactFingerprint r with
  | none => intro h; cases h
  | some f => intro h; exact ⟨f, rfl, h⟩

theorem conflictIdxOf_some {entries : List WorkspaceEntry} {wsId : Str}
    {entry : WorkspaceEntry} {j : Nat}
    (h : conflictIdxOf entries wsId entry = some j) :
    ∃ cid b, entry.conflict_with = some cid ∧ entries.get? j = some b ∧
      b.id = cid ∧ b.workspace_id = wsId := by
  revert h
  unfold conflictIdxOf
  cases entry.conflict_with with
  | none => intro h; cases h
  | some cid =>
    intro h
    rcases findIndex_some h with ⟨b, hb, hpb⟩
    simp only [entryPred, decide_eq_true_eq] at hpb
    exact ⟨cid, b, rfl, hb, hpb.1, hpb.2⟩

/-- A fuzzy scan that returns a candidate returns one of the scanned indices,
together with its score. -/
theorem fuzzyScan_some_mem {E : List WorkspaceEntry} {t : Option Str}
    {cands : List Nat} {i : Nat} {s : Score}
    (hfz : fuzzyScan E t cands (none, ⟨0, 1⟩) = (some i, s)) :
    i ∈ cands ∧ s = scoreOf E t i := by
  rcases fuzzyScan_spec E t cands none ⟨0, 1⟩ (by decide) with ⟨-, -, -, hdisj⟩
  rcases hdisj with hunch | ⟨p, i2, q, hsplit, h1, h2, -, -⟩
  · rw [hfz] at hunch
    exact absurd hunch (by simp)
  · rw [hfz] at h1 h2
    have hi2 : i2 = i := by
      have : some i = some i2 := h1
      injection this.symm
    subst hi2
    exact ⟨by rw [hsplit]; simp, h2⟩

/-! ### processRef preserves the foreign-workspace sublist and MapsActive -/

theorem processRef_frame_maps (wsId pid plbl : Str) (now : Nat) (st : BatchState)
    (r : Reference) (h : MapsActive wsId st) :
    (processRef wsId pid plbl now st r).entries.filter
        (fun e => decide (e.workspace_id ≠ wsId)) =
      st.entries.filter (fun e => decide (e.workspace_id ≠ wsId)) ∧
    MapsActive wsId (processRef wsId pid plbl now st r) := by
  have hmerge : ∀ i, (∃ e, st.entries.get? i = some e ∧ e.workspace_id = wsId) →
      ∀ sr now2, (mergeAt st i sr now2).entries.filter
          (fun e => decide (e.workspace_id ≠ wsId)) =
        st.entries.filter (fun e => decide (e.workspace_id ≠ wsId)) := by
    rintro i ⟨e, hget, hws⟩ sr now2
    show (listModify st.entries i fun x => mergeSourceRef x sr now2).filter _ = _
    apply filter_listModify
    · intro a ha
      have hae : e = a := by rw [hget] at ha; injection ha
      subst hae
      simp [hws]
    · intro a
      simp [(mergeSourceRef_fields a sr now2).1]
  have hpush : ∀ bIdx s, (pushNew st wsId now r ⟨pid, plbl, r.index⟩ bIdx s).entries.filter
        (fun e => decide (e.workspace_id ≠ wsId)) =
      st.entries.filter (fun e => decide (e.workspace_id ≠ wsId)) := by
    intro bIdx s
    rcases pushNew_dedup_cases st wsId now r ⟨pid, plbl, r.index⟩ bIdx s with
      ⟨ne, hent, -, hnws, -⟩
    rw [hent, List.filter_append]
    have hne2 : [ne].filter (fun e => decide (e.workspace_id ≠ wsId)) = [] := by
      simp [hnws]
    rw [hne2, List.append_nil]
  cases hd : doiLookup st r with
  | some i =>
    rw [processRef_eq_merge_doi hd wsId pid plbl now]
    rcases doiLookup_some hd with ⟨d, -, hm⟩
    rcases h.2.1 d i hm with ⟨e, hget, hws⟩
    exact ⟨hmerge i ⟨e, hget, hws⟩ _ now, mergeAt_mapsActive h i _ now⟩
  | none =>
    cases hf : fpLookup st r with
    | some i =>
      rw [processRef_eq_merge_fp hd hf wsId pid plbl now]
      rcases fpLookup_some hf with ⟨f2, -, hm⟩
      rcases h.2.2 f2 i hm with ⟨e, hget, hws⟩
      exact ⟨hmerge i ⟨e, hget, hws⟩ _ now, mergeAt_mapsActive h i _ now⟩
    | none =>
      rcases hfz : fuzzyScan st.entries r.title st.simCands (none, ⟨0, 1⟩) with ⟨b, s⟩
      cases b with
      | some i =>
        rw [processRef_eq_fuzzy_some hd hf hfz wsId pid plbl now]
        by_cases hle : Score.le AUTO_MERGE_THRESHOLD s
        · rw [if_pos hle]
          rcases fuzzyScan_some_mem hfz with ⟨hmem, -⟩
          rcases h.1 i hmem with ⟨e, hget, hws, -⟩
          exact ⟨hmerge i ⟨e, hget, hws⟩ _ now, mergeAt_mapsActive h i _ now⟩
        · rw [if_neg hle]
          exact ⟨hpush (some i) s, pushNew_mapsActive h now r _ (some i) s⟩
      | none =>
        rw [processRef_eq_fuzzy_none hd hf hfz wsId pid plbl now]
        exact ⟨hpush none s, pushNew_mapsActive h now r _ none s⟩

theorem foldl_frame_maps (wsId pid plbl : Str) (now : Nat) :
    ∀ (l : List Reference) (st : BatchState), MapsActive wsId st →
      (l.foldl (processRef wsId pid plbl now) st).entries.filter
          (fun e => decide (e.workspace_id ≠ wsId)) =
        st.entries.filter (fun e => decide (e.workspace_id ≠ wsId)) ∧
      MapsActive wsId (l.foldl (processRef wsId pid plbl now) st) := by
  intro l
  induction l with
  | nil => intro st h; exact ⟨rfl, h⟩
  | cons r t ih =>
    intro st h
    rcases processRef_frame_maps wsId pid plbl now st r h with ⟨h1, h2⟩
    rcases ih (processRef wsId pid plbl now st r) h2 with ⟨h3, h4⟩
    exact ⟨by rw [List.foldl_cons, h3, h1], h4⟩

/-- The initial batch state of any `addReferences` call satisfies
`MapsActive`. -/
theorem addReferences_initial_mapsActive (store : WorkspaceStoreV2) (seed : Nat) :
    MapsActive store.active_workspace_id
      (buildMapsGo store.active_workspace_id store.entries 0
        (initBatch store.entries seed)) := by
  apply buildMapsGo_mapsActive
  · intro k e hk
    simpa [initBatch] using hk
  · exact initBatch_mapsActive store.active_workspace_id store.entries seed

/-! ### listSet wrappers -/

theorem get?_listSet_self {α : Type} {l : List α} {i : Nat} {a : α} (v : α)
    (h : l.get? i = some a) : (listSet l i v).get? i = some v := by
  show (listModify l i (fun _ => v)).get? i = some v
  exact get?_listModify_self (fun _ => v) h

theorem get?_listSet_ne {α : Type} (l : List α) (i : Nat) (v : α) {j : Nat}
    (h : j ≠ i) : (listSet l i v).get? j = l.get? j :=
  get?_listModify_ne l i (fun _ => v) h

theorem mem_listSet {α : Type} {l : List α} {i : Nat} {v b : α}
    (h : b ∈ listSet l i v) : b ∈ l ∨ b = v := by
  rcases mem_listModify h with h1 | ⟨a, -, h2⟩
  · exact Or.inl h1
  · exact Or.inr h2

theorem filter_listSet {α : Type} (p : α → Bool) {l : List α} {i : Nat} {v : α}
    (hp : ∀ a, l.get? i = some a → p a = false) (hv : p v = false) :
    (listSet l i v).filter p = l.filter p := by
  induction l generalizing i with
  | nil => rfl
  | cons x t ih =>
    cases i with
    | zero =>
      have hx : p x = false := hp x (by simp)
      show (v :: t).filter p = (x :: t).filter p
      rw [List.filter_cons, List.filter_cons, hx, hv]
      simp
    | succ n =>
      show (x :: listSet t n v).filter p = (x :: t).filter p
      rw [List.filter_cons, List.filter_cons,
        ih (fun a ha => hp a (by simpa using ha))]

theorem totalOcc_listSet {l : List WorkspaceEntry} {i : Nat} {a : WorkspaceEntry}
    (v : WorkspaceEntry) (h : l.get? i = some a) :
    totalOcc (listSet l i v) + a.occurrence_count = totalOcc l + v.occurrence_count :=
  totalOcc_listModify (fun _ => v) h

theorem length_listSet {α : Type} (l : List α) (i : Nat) (v : α) :
    (listSet l i v).length = l.length :=
  listModify_length l i (fun _ => v)

/-! ### resolveConflict frame lemmas -/

theorem keepBothEntries_frame {entries : List WorkspaceEntry} {wsId : Str}
    {entryIdx : Nat} {entry : WorkspaceEntry}
    (hget : entries.get? entryIdx = some entry)
    (hws : entry.workspace_id = wsId) (entryId : Nat) (now : Nat) :
    (keepBothEntries entries wsId entryId entryIdx entry now).filter
        (fun e => decide (e.workspace_id ≠ wsId)) =
      entries.filter (fun e => decide (e.workspace_id ≠ wsId)) := by
  have hclear1 : (listSet entries entryIdx (clearEntry entry now)).filter
      (fun e => decide (e.workspace_id ≠ wsId)) =
      entries.filter (fun e => decide (e.workspace_id ≠ wsId)) := by
    apply filter_listSet
    · intro a ha
      have hae : entry = a := by rw [hget] at ha; injection ha
      subst hae
      simp [hws]
    · simp [(clearEntry_fields entry now).1, hws]
  unfold keepBothEntries
  cases hci : conflictIdxOf entries wsId entry with
  | none => exact hclear1
  | some j =>
    dsimp only
    rcases conflictIdxOf_some hci with ⟨cid, b, hcw, hbj, hbid, hbws⟩
    cases hg2 : (listSet entries entryIdx (clearEntry entry now)).get? j with
    | none => exact hclear1
    | some other =>
      dsimp only
      have hows : other.workspace_id = wsId := by
        by_cases hje : j = entryIdx
        · subst hje
          rw [get?_listSet_self (clearEntry entry now) hget] at hg2
          have : clearEntry entry now = other := by injection hg2
          rw [← this, (clearEntry_fields entry now).1]
          exact hws
        · rw [get?_listSet_ne entries entryIdx (clearEntry entry now) hje] at hg2
          rw [hbj] at hg2
          have : b = other := by injection hg2
          rw [← this]
          exact hbws
      by_cases hrec : other.dedup_status = .conflict ∧ other.conflict_with = some entryId
      · rw [if_pos hrec]
        have h2 : (listSet (listSet entries entryIdx (clearEntry entry now)) j
            (clearEntry other now)).filter (fun e => decide (e.workspace_id ≠ wsId)) =
            (listSet entries entryIdx (clearEntry entry now)).filter
              (fun e => decide (e.workspace_id ≠ wsId)) := by
          apply filter_listSet
          · intro a ha
            rw [hg2] at ha
            have : other = a := by injection ha
            subst this
            simp [hows]
          · simp [(clearEntry_fields other now).1, hows]
        rw [h2]
        exact hclear1
      · rw [if_neg hrec]
        exact hclear1

theorem mergeShape_frame {entries : List WorkspaceEntry} {wsId : Str}
    {wIdx lIdx : Nat} {winner loser : WorkspaceEntry}
    (hw : entries.get? wIdx = some winner) (hl : entries.get? lIdx = some loser)
    (hwws : winner.workspace_id = wsId) (hlws : loser.workspace_id = wsId)
    (hcross : ∀ x ∈ entries, x.workspace_id ≠ wsId → x.conflict_with ≠ some loser.id)
    (now : Nat) :
    ((listEraseAt (listSet entries wIdx (mergedWinner winner loser now)) lIdx).map
        (cleanupLoser loser.id now)).filter (fun e => decide (e.workspace_id ≠ wsId)) =
      entries.filter (fun e => decide (e.workspace_id ≠ wsId)) := by
  have h1 : (listSet entries wIdx (mergedWinner winner loser now)).filter
      (fun e => decide (e.workspace_id ≠ wsId)) =
      entries.filter (fun e => decide (e.workspace_id ≠ wsId)) := by
    apply filter_listSet
    · intro a ha
      have : winner = a := by rw [hw] at ha; injection ha
      subst this
      simp [hwws]
    · show decide ((mergedWinner winner loser now).workspace_id ≠ wsId) = false
      have : (mergedWinner winner loser now).workspace_id = winner.workspace_id := rfl
      simp [this, hwws]
  have hlast : ∃ a, (listSet entries wIdx (mergedWinner winner loser now)).get? lIdx =
      some a ∧ decide (a.workspace_id ≠ wsId) = false := by
    by_cases hlw : lIdx = wIdx
    · subst hlw
      refine ⟨mergedWinner winner loser now,
        get?_listSet_self (mergedWinner winner loser now) hw, ?_⟩
      have : (mergedWinner winner loser now).workspace_id = winner.workspace_id := rfl
      simp [this, hwws]
    · refine ⟨loser, ?_, by simp [hlws]⟩
      rw [get?_listSet_ne entries wIdx (mergedWinner winner loser now) hlw]
      exact hl
  rcases hlast with ⟨a, hga, hpa⟩
  have h2 := filter_listEraseAt (fun e => decide (e.workspace_id ≠ wsId)) _ lIdx a hga hpa
  have h3 : ((listEraseAt (listSet entries wIdx (mergedWinner winner loser now)) lIdx).map
      (cleanupLoser loser.id now)).filter (fun e => decide (e.workspace_id ≠ wsId)) =
      (listEraseAt (listSet entries wIdx (mergedWinner winner loser now)) lIdx).filter
        (fun e => decide (e.workspace_id ≠ wsId)) := by
    apply filter_map_fix
    · intro x hx hpx
      have hxmem : x ∈ entries := by
        rcases mem_listSet (mem_listEraseAt hx) with hm | hm
        · exact hm
        · subst hm
          exfalso
          have : (mergedWinner winner loser now).workspace_id = winner.workspace_id := rfl
          simp [this, hwws] at hpx
      have hxws : x.workspace_id ≠ wsId := by simpa using hpx
      exact cleanupLoser_of_ne (hcross x hxmem hxws)
    · intro x
      simp [(cleanupLoser_fields loser.id now x).1]
  rw [h3, h2, h1]

theorem mergeEntries_frame {entries : List WorkspaceEntry} {wsId : Str}
    {entryIdx : Nat} {entry : WorkspaceEntry}
    (hget : entries.get? entryIdx = some entry)
    (hws : entry.workspace_id = wsId)
    (hcross : ∀ x ∈ entries, x.workspace_id ≠ wsId →
      ∀ b2 ∈ entries, b2.workspace_id = wsId → x.conflict_with ≠ some b2.id)
    (now : Nat) :
    (mergeEntries entries wsId entryIdx entry now).filter
        (fun e => decide (e.workspace_id ≠ wsId)) =
      entries.filter (fun e => decide (e.workspace_id ≠ wsId)) := by
  have hclear1 : (listSet entries entryIdx (clearEntry entry now)).filter
      (fun e => decide (e.workspace_id ≠ wsId)) =
      entries.filter (fun e => decide (e.workspace_id ≠ wsId)) := by
    apply filter_listSet
    · intro a ha
      have hae : entry = a := by rw [hget] at ha; injection ha
      subst hae
      simp [hws]
    · simp [(clearEntry_fields entry now).1, hws]
  unfold mergeEntries
  cases hci : conflictIdxOf entries wsId entry with
  | none => exact hclear1
  | some j =>
    dsimp only
    rcases conflictIdxOf_some hci with ⟨cid, b, hcw, hbj, hbid, hbws⟩
    cases hgetj : entries.get? j with
    | none => rfl
    | some o =>
      dsimp only
      have hbo : o = b := by rw [hgetj] at hbj; injection hbj
      have hows : o.workspace_id = wsId := by rw [hbo]; exact hbws
      by_cases hrank : rank entry < rank o
      · rw [if_pos hrank]
        dsimp only
        rw [hgetj, hget]
        dsimp only
        exact mergeShape_frame hgetj hget hows hws
          (fun x hx hxws => hcross x hx hxws entry (mem_of_get? hget) hws) now
      · rw [if_neg hrank]
        dsimp only
        rw [hget, hgetj]
        dsimp only
        exact mergeShape_frame hget hgetj hws hows
          (fun x hx hxws => hcross x hx hxws o (mem_of_get? hgetj) hows) now

theorem resolveConflict_frame {store : WorkspaceStoreV2} (hcross : NoCrossRef store)
    (entryId : Nat) (res : ConflictResolution) (now : Nat) :
    (resolveConflict store entryId res now).entries.filter
        (fun e => decide (e.workspace_id ≠ store.active_workspace_id)) =
      store.entries.filter
        (fun e => decide (e.workspace_id ≠ store.active_workspace_id)) := by
  unfold resolveConflict
  cases hfind : findIndex (entryPred store.active_workspace_id entryId) store.entries with
  | none => rfl
  | some i =>
    dsimp only
    cases hget : store.entries.get? i with
    | none => rfl
    | some e =>
      dsimp only
      have hws : e.workspace_id = store.active_workspace_id := by
        rcases findIndex_some hfind with ⟨a, ha, hpa⟩
        have hae : e = a := by rw [hget] at ha; injection ha
        simp only [entryPred, decide_eq_true_eq] at hpa
        rw [hae]
        exact hpa.2
      by_cases hst : e.dedup_status = DedupStatus.conflict
      · rw [if_pos hst]
        cases res with
        | keep_both => exact keepBothEntries_frame hget hws entryId now
        | merge => exact mergeEntries_frame hget hws hcross now
      · rw [if_neg hst]

/-! ## Claim theorems -/

/-- C1 (counterexample): the claim "for every store reachable from the empty
store by addReferences / resolveConflict / clearWorkspace, every workspace
entry satisfies occurrence_count = length of source_refs" is false.  Adding
the same (paper, index) source twice under two near-identical titles creates
a conflict pair sharing one source reference; resolving it by merge sums the
occurrence counts (2) but deduplicates the union (length 1). -/
theorem C1_counterexample :
    ¬ (∀ (s : WorkspaceStoreV2) (n : Nat), Reachable s n →
      ∀ e ∈ s.entries, e.occurrence_count = e.source_refs.length) := by
  intro h
  exact absurd
    (h _ _ ((((Reachable.empty 0).add cexInpA 1).add cexInpB 2).resolve 1 .merge 3))
    (by decide)

/-- C1 (amended): in every reachable store, every entry's source-reference
list is never longer than its occurrence count; equality can fail only after
a merge resolution combined two entries sharing a (paper id, source index)
source reference, where the occurrence counts are summed but the union is
deduplicated. -/
theorem C1_amended_occurrence_ge (s : WorkspaceStoreV2) (n : Nat)
    (h : Reachable s n) :
    ∀ e ∈ s.entries, e.source_refs.length ≤ e.occurrence_count :=
  (reachable_storeInv h).2.2.1

theorem C1_amended_witness :
    cexEntryA.source_refs.length ≤ cexEntryA.occurrence_count :=
  C1_amended_occurrence_ge _ _ ((Reachable.empty 0).add cexInpA 1) cexEntryA
    (by decide)

/-- C4 (counterexample): the claim that every unresolved `conflict` entry of
a reachable store back-references another `conflict` entry pointing back at
it (bidirectional pairing) is false: classification leaves the best-match
candidate unmodified, so the candidate keeps status `unique` and a null
back-reference. -/
theorem C4_counterexample :
    ¬ (∀ (s : WorkspaceStoreV2) (n : Nat), Reachable s n →
      ∀ e ∈ s.entries, e.dedup_status = .conflict →
        ∃ cid, e.conflict_with = some cid ∧
          ∃ e2 ∈ s.entries, e2.id = cid ∧ e2.dedup_status = .conflict ∧
            e2.conflict_with = some e.id) := by
  intro h
  exact absurd (h _ _ (((Reachable.empty 0).add cexInpA 1).add cexInpB 2)) (by decide)

/-- C4 (amended): in every reachable store, every `conflict` entry carries a
non-null back-reference to a distinct existing entry; the pairing is
one-directional — the pointed-at candidate is left unmodified at creation,
so it need not have conflict status nor point back. -/
theorem C4_amended_conflict_backref (s : WorkspaceStoreV2) (n : Nat)
    (h : Reachable s n) :
    ∀ e ∈ s.entries, e.dedup_status = .conflict →
      ∃ cid, e.conflict_with = some cid ∧ cid ≠ e.id ∧
        ∃ e2 ∈ s.entries, e2.id = cid :=
  (reachable_storeInv h).2.2.2.2

theorem C4_amended_witness :
    ∃ cid, cexEntryB.conflict_with = some cid ∧ cid ≠ cexEntryB.id ∧
      ∃ e2 ∈ (addReferences (addReferences (createEmptyStore 0) cexInpA 1 0).1
          cexInpB 2 (addReferences (createEmptyStore 0) cexInpA 1 0).2.2).1.entries,
        e2.id = cid :=
  C4_amended_conflict_backref _ _
    (((Reachable.empty 0).add cexInpA 1).add cexInpB 2) cexEntryB
    (by decide) (by decide)

/-- C8: `resolveConflict` is a total function that leaves the store entirely
unchanged whenever no entry with the given id exists in the active workspace
or that entry's dedup status is not `conflict`. -/
theorem C8_noop (store : WorkspaceStoreV2) (entryId : Nat)
    (res : ConflictResolution) (now : Nat)
    (h : ∀ e ∈ store.entries, e.id = entryId →
      e.workspace_id = store.active_workspace_id → e.dedup_status ≠ .conflict) :
    resolveConflict store entryId res now = store := by
  unfold resolveConflict
  cases hfind : findIndex (entryPred store.active_workspace_id entryId) store.entries with
  | none => rfl
  | some i =>
    dsimp only
    cases hget : store.entries.get? i with
    | none => rfl
    | some e =>
      dsimp only
      rcases findIndex_some hfind with ⟨a, ha, hpa⟩
      have hae : e = a := by rw [hget] at ha; injection ha
      simp only [entryPred, decide_eq_true_eq] at hpa
      have hne := h e (mem_of_get? hget) (hae ▸ hpa.1) (hae ▸ hpa.2)
      rw [if_neg hne]

theorem C8_noop_witness :
    resolveConflict witUniqueStore 0 .merge 9 = witUniqueStore :=
  C8_noop witUniqueStore 0 .merge 9 (by decide)

/-- Idempotence of the participation filter. -/
theorem filter_qualifies_idem (refs : List Reference) :
    (refs.filter qualifies).filter qualifies = refs.filter qualifies := by
  induction refs with
  | nil => rfl
  | cons r t ih =>
    by_cases hq : qualifies r
    · simp [List.filter_cons, hq, ih]
    · simp [List.filter_cons, hq, ih]

/-- C7: only references with a truthy (non-empty) bibtex payload participate
in a batch — the call behaves identically on the pre-filtered input — and the
returned counters satisfy added + merged = number of qualifying references,
with the entry list growing by exactly the number of added entries (so every
qualifying reference either merges into an existing entry or creates a new
one, and non-qualifying references leave the entries untouched). -/
theorem C7_batch_counts (store : WorkspaceStoreV2) (pid plbl : Str)
    (refs : List Reference) (now seed : Nat) :
    addReferences store ⟨pid, plbl, refs⟩ now seed =
      addReferences store ⟨pid, plbl, refs.filter qualifies⟩ now seed ∧
    (addReferences store ⟨pid, plbl, refs⟩ now seed).2.1.added +
        (addReferences store ⟨pid, plbl, refs⟩ now seed).2.1.merged =
      (refs.filter qualifies).length ∧
    (addReferences store ⟨pid, plbl, refs⟩ now seed).1.entries.length =
      store.entries.length + (addReferences store ⟨pid, plbl, refs⟩ now seed).2.1.added := by
  have hparts := buildMapsGo_parts store.active_workspace_id store.entries 0
    (initBatch store.entries seed)
  have hc := foldl_counts store.active_workspace_id pid plbl now
    (refs.filter qualifies)
    (buildMapsGo store.active_workspace_id store.entries 0 (initBatch store.entries seed))
  refine ⟨?_, ?_, ?_⟩
  · unfold addReferences
    dsimp only
    rw [filter_qualifies_idem]
  · show (List.foldl (processRef store.active_workspace_id pid plbl now)
        (buildMapsGo store.active_workspace_id store.entries 0
          (initBatch store.entries seed)) (refs.filter qualifies)).result.added +
      (List.foldl (processRef store.active_workspace_id pid plbl now)
        (buildMapsGo store.active_workspace_id store.entries 0
          (initBatch store.entries seed)) (refs.filter qualifies)).result.merged =
      (refs.filter qualifies).length
    rcases hc with ⟨h1, -⟩
    rw [hparts.2.1] at h1
    simpa [initBatch] using h1
  · show (List.foldl (processRef store.active_workspace_id pid plbl now)
        (buildMapsGo store.active_workspace_id store.entries 0
          (initBatch store.entries seed)) (refs.filter qualifies)).entries.length =
      store.entries.length +
      (List.foldl (processRef store.active_workspace_id pid plbl now)
        (buildMapsGo store.active_workspace_id store.entries 0
          (initBatch store.entries seed)) (refs.filter qualifies)).result.added
    rcases hc with ⟨-, h2⟩
    rw [hparts.2.1, hparts.1] at h2
    have e1 : (initBatch store.entries seed).result.added = 0 := rfl
    have e2 : (initBatch store.entries seed).entries.length = store.entries.length := rfl
    rw [e1, e2] at h2
    omega

/-- C2 (counterexample): the claim that a reference matching nothing and with
best fuzzy similarity below the conflict threshold is created `unique` with a
null back-reference is false: the code stores `conflict_with :=
bestCandidateId` unconditionally, so any positive similarity (here 0.1)
leaves a non-null back-reference on a `unique` entry. -/
theorem C2_counterexample :
    ¬ (∀ (store : WorkspaceStoreV2) (input : AddReferencesInput)
        (now seed : Nat) (k : Nat) (e : WorkspaceEntry),
      (addReferences store input now seed).1.entries.get? k = some e →
      store.entries.length ≤ k → e.dedup_status = .unique → e.conflict_with = none) := by
  intro h
  have h1 := h (addReferences (createEmptyStore 0) cexInpA 1 0).1 cexInpC 2 1 1
  revert h1
  decide

/-- C2 (amended): for a qualifying reference with no DOI or fingerprint match
and best fuzzy similarity below 0.95, a new entry is appended (the candidate
itself left unmodified): with a best candidate its back-reference is always
the candidate's id and the status is `conflict` exactly when the similarity
is at least 0.88 (`unique` otherwise, still with the non-null
back-reference); the back-reference is null only when no candidate scored
above zero. -/
theorem C2_amended_classification (wsId pid plbl : Str) (now : Nat)
    (st : BatchState) (r : Reference)
    (h1 : doiLookup st r = none) (h2 : fpLookup st r = none) :
    ∀ b s, fuzzyScan st.entries r.title st.simCands (none, ⟨0, 1⟩) = (b, s) →
      (∀ i c, b = some i → st.entries.get? i = some c →
        ¬ Score.le AUTO_MERGE_THRESHOLD s →
        ∃ ne, (processRef wsId pid plbl now st r).entries = st.entries ++ [ne] ∧
          ne.reference = r ∧ ne.source_refs = [⟨pid, plbl, r.index⟩] ∧
          ne.occurrence_count = 1 ∧ ne.conflict_with = some c.id ∧
          ne.dedup_status =
            (if Score.le CONFLICT_THRESHOLD s then .conflict else .unique)) ∧
      (b = none →
        ∃ ne, (processRef wsId pid plbl now st r).entries = st.entries ++ [ne] ∧
          ne.reference = r ∧ ne.source_refs = [⟨pid, plbl, r.index⟩] ∧
          ne.occurrence_count = 1 ∧ ne.conflict_with = none ∧
          ne.dedup_status = .unique) := by
  intro b s hfz
  constructor
  · intro i c hb hc hle
    subst hb
    rw [processRef_eq_fuzzy_some h1 h2 hfz wsId pid plbl now, if_neg hle]
    rcases pushNew_dedup_cases st wsId now r ⟨pid, plbl, r.index⟩ (some i) s with
      ⟨ne, hent, -, -, hrefs, hocc, href, hcase⟩
    rcases hcase with ⟨i2, c2, hbi, hgc2, hcw, hdst⟩ | ⟨-, -, hnone⟩
    · have hi2 : i = i2 := by injection hbi
      subst hi2
      have hc2 : c2 = c := by rw [hc] at hgc2; injection hgc2.symm
      subst hc2
      exact ⟨ne, hent, href, hrefs, hocc, hcw, hdst⟩
    · rcases hnone with hn | ⟨i2, hbi2, hg2⟩
      · cases hn
      · have hi2 : i = i2 := by injection hbi2
        subst hi2
        rw [hc] at hg2
        cases hg2
  · intro hb
    subst hb
    rw [processRef_eq_fuzzy_none h1 h2 hfz wsId pid plbl now]
    rcases pushNew_dedup_cases st wsId now r ⟨pid, plbl, r.index⟩ none s with
      ⟨ne, hent, -, -, hrefs, hocc, href, hcase⟩
    rcases hcase with ⟨i2, c2, hbi, -⟩ | ⟨hcw, hdst, -⟩
    · cases hbi
    · exact ⟨ne, hent, href, hrefs, hocc, hcw, hdst⟩

theorem C2_amended_witness :
    ∃ ne, (processRef DEFAULT_WORKSPACE_ID "p2".data "P2".data 7 cexBatch
        cexRefC).entries = cexBatch.entries ++ [ne] ∧
      ne.reference = cexRefC ∧
      ne.source_refs = [⟨"p2".data, "P2".data, cexRefC.index⟩] ∧
      ne.occurrence_count = 1 ∧ ne.conflict_with = some cexEntryA.id ∧
      ne.dedup_status =
        (if Score.le CONFLICT_THRESHOLD ⟨2, 20⟩ then .conflict else .unique) :=
  (C2_amended_classification DEFAULT_WORKSPACE_ID "p2".data "P2".data 7 cexBatch
      cexRefC (by decide) (by decide) (some 0) ⟨2, 20⟩ (by decide)).1
    0 cexEntryA rfl (by decide) (by decide)

/-! ### Helper lemmas for the merge-resolution shape -/

theorem get?_map_eq {α β : Type} (f : α → β) :
    ∀ (l : List α) (i : Nat), (l.map f).get? i = (l.get? i).map f := by
  intro l
  induction l with
  | nil => intro i; rfl
  | cons x t ih =>
    intro i
    cases i with
    | zero => rfl
    | succ n => simpa using ih n

/-- Shape facts of the post-merge entry list: one entry fewer, total
occurrence count preserved, and the merged winner present. -/
theorem mergeShape_props {l : List WorkspaceEntry} {wIdx lIdx : Nat}
    {winner loser : WorkspaceEntry} (hw : l.get? wIdx = some winner)
    (hl : l.get? lIdx = some loser) (hne : wIdx ≠ lIdx) (now : Nat) :
    ((listEraseAt (listSet l wIdx (mergedWinner winner loser now)) lIdx).map
        (cleanupLoser loser.id now)).length + 1 = l.length ∧
    totalOcc ((listEraseAt (listSet l wIdx (mergedWinner winner loser now)) lIdx).map
        (cleanupLoser loser.id now)) = totalOcc l ∧
    ∃ k, ((listEraseAt (listSet l wIdx (mergedWinner winner loser now)) lIdx).map
        (cleanupLoser loser.id now)).get? k = some (mergedWinner winner loser now) := by
  have hll : lIdx < l.length := get?_some_lt hl
  have hset : (listSet l wIdx (mergedWinner winner loser now)).get? lIdx = some loser := by
    rw [get?_listSet_ne l wIdx (mergedWinner winner loser now) (fun hc => hne hc.symm)]
    exact hl
  have hlen2 : lIdx < (listSet l wIdx (mergedWinner winner loser now)).length := by
    rw [length_listSet]; exact hll
  refine ⟨?_, ?_, ?_⟩
  · rw [List.length_map, listEraseAt_length hlen2]
    exact length_listSet l wIdx _
  · rw [totalOcc_map_occ_preserving _ (fun e => (cleanupLoser_fields loser.id now e).2.2.1)]
    have h1 := totalOcc_listEraseAt hset
    have h2 := totalOcc_listSet (mergedWinner winner loser now) hw
    have h3 : (mergedWinner winner loser now).occurrence_count =
        winner.occurrence_count + loser.occurrence_count := rfl
    omega
  · have hclean : cleanupLoser loser.id now (mergedWinner winner loser now) =
        mergedWinner winner loser now :=
      cleanupLoser_of_ne (by simp [mergedWinner])
    rcases Nat.lt_or_ge wIdx lIdx with hlt | hge
    · refine ⟨wIdx, ?_⟩
      rw [get?_map_eq, get?_listEraseAt_lt _ hlt,
          get?_listSet_self (mergedWinner winner loser now) hw]
      simp [hclean]
    · have hgt : lIdx < wIdx := by omega
      refine ⟨wIdx - 1, ?_⟩
      rw [get?_map_eq, get?_listEraseAt_ge _ (by omega)]
      have he : wIdx - 1 + 1 = wIdx := by omega
      rw [he, get?_listSet_self (mergedWinner winner loser now) hw]
      simp [hclean]

/-- C3: per-reference match priority inside `addReferences`: a hit in the DOI
map merges immediately; failing that, a hit in the fingerprint map merges;
failing both, the fuzzy scan over the similarity candidates returns a score
dominating every candidate's score, and when it names a best candidate that
candidate is the first one attaining the maximum (earlier candidates score
strictly less); the reference is merged through the fuzzy path exactly when
the maximum similarity reaches the 0.95 auto-merge threshold, and otherwise
a new entry is pushed. -/
theorem C3_match_priority (wsId pid plbl : Str) (now : Nat) (st : BatchState)
    (r : Reference) :
    (∀ i, doiLookup st r = some i →
      processRef wsId pid plbl now st r = mergeAt st i ⟨pid, plbl, r.index⟩ now) ∧
    (∀ i, doiLookup st r = none → fpLookup st r = some i →
      processRef wsId pid plbl now st r = mergeAt st i ⟨pid, plbl, r.index⟩ now) ∧
    (∀ b s, doiLookup st r = none → fpLookup st r = none →
      fuzzyScan st.entries r.title st.simCands (none, ⟨0, 1⟩) = (b, s) →
      ((∀ j ∈ st.simCands, Score.le (scoreOf st.entries r.title j) s) ∧
       (∀ i, b = some i → s = scoreOf st.entries r.title i ∧
         ∃ p q, st.simCands = p ++ i :: q ∧
           ∀ j ∈ p, Score.lt (scoreOf st.entries r.title j) s) ∧
       (∀ i, b = some i → Score.le AUTO_MERGE_THRESHOLD s →
         processRef wsId pid plbl now st r = mergeAt st i ⟨pid, plbl, r.index⟩ now) ∧
       (∀ i, b = some i → ¬ Score.le AUTO_MERGE_THRESHOLD s →
         processRef wsId pid plbl now st r =
           pushNew st wsId now r ⟨pid, plbl, r.index⟩ (some i) s) ∧
       (b = none →
         processRef wsId pid plbl now st r =
           pushNew st wsId now r ⟨pid, plbl, r.index⟩ none s))) := by
  refine ⟨?_, ?_, ?_⟩
  · intro i hd
    exact processRef_eq_merge_doi hd wsId pid plbl now
  · intro i hd hf
    exact processRef_eq_merge_fp hd hf wsId pid plbl now
  · intro b s hd hf hfz
    obtain ⟨-, -, hdom, hdisj⟩ :=
      fuzzyScan_spec st.entries r.title st.simCands none ⟨0, 1⟩ (by decide)
    rw [hfz] at hdom hdisj
    refine ⟨hdom, ?_, ?_, ?_, ?_⟩
    · intro i hbi
      rcases hdisj with hunch | ⟨p, i2, q, hsplit, h1, h2, -, h4⟩
      · have hb0 : b = none := congrArg Prod.fst hunch
        rw [hbi] at hb0
        cases hb0
      · have hbi2 : b = some i2 := h1
        rw [hbi] at hbi2
        have hii : i2 = i := by
          have h5 : i = i2 := by injection hbi2
          exact h5.symm
        subst hii
        exact ⟨h2, p, q, hsplit, h4⟩
    · intro i hbi hle
      rw [hbi] at hfz
      rw [processRef_eq_fuzzy_some hd hf hfz wsId pid plbl now, if_pos hle]
    · intro i hbi hle
      rw [hbi] at hfz
      rw [processRef_eq_fuzzy_some hd hf hfz wsId pid plbl now, if_neg hle]
    · intro hbn
      rw [hbn] at hfz
      exact processRef_eq_fuzzy_none hd hf hfz wsId pid plbl now

theorem C3_witness :
    processRef DEFAULT_WORKSPACE_ID "p3".data "P3".data 7 cexBatch cexRefA =
      mergeAt cexBatch 0 ⟨"p3".data, "P3".data, cexRefA.index⟩ 7 :=
  ((C3_match_priority DEFAULT_WORKSPACE_ID "p3".data "P3".data 7 cexBatch
      cexRefA).2.2 (some 0) ⟨20, 20⟩ (by decide) (by decide) (by decide)).2.2.1
    0 rfl (by decide)

/-- C5: a `merge` resolution of an existing active-workspace `conflict` entry
whose back-referenced counterpart also exists in the active workspace removes
exactly one entry, preserves the total occurrence count, and keeps the
higher-ranked of the two (raw-DOI truthiness beating `matched` beating
`fuzzy` beating `unmatched`, ties favoring the entry being resolved) as the
survivor, whose source references are the key-deduplicated union of the two
originals and whose occurrence count is their sum. -/
theorem C5_merge_resolution (store : WorkspaceStoreV2) (entryId now entryIdx j : Nat)
    (entry other : WorkspaceEntry)
    (hfind : findIndex (entryPred store.active_workspace_id entryId) store.entries =
      some entryIdx)
    (hget : store.entries.get? entryIdx = some entry)
    (hst : entry.dedup_status = .conflict)
    (hcw : conflictIdxOf store.entries store.active_workspace_id entry = some j)
    (hother : store.entries.get? j = some other)
    (hne : entryIdx ≠ j) :
    ∀ winner loser : WorkspaceEntry,
      winner = (if rank entry < rank other then other else entry) →
      loser = (if rank entry < rank other then entry else other) →
      (resolveConflict store entryId .merge now).entries.length + 1 =
        store.entries.length ∧
      totalOcc (resolveConflict store entryId .merge now).entries =
        totalOcc store.entries ∧
      (∃ k, (resolveConflict store entryId .merge now).entries.get? k =
        some (mergedWinner winner loser now)) ∧
      (mergedWinner winner loser now).id = winner.id ∧
      (mergedWinner winner loser now).dedup_status = .unique ∧
      (mergedWinner winner loser now).conflict_with = none ∧
      (mergedWinner winner loser now).resolved_at = some now ∧
      (mergedWinner winner loser now).occurrence_count =
        winner.occurrence_count + loser.occurrence_count ∧
      (∀ sr ∈ winner.source_refs ++ loser.source_refs,
        hasKey (mergedWinner winner loser now).source_refs sr = true) ∧
      (∀ x ∈ (mergedWinner winner loser now).source_refs,
        x ∈ winner.source_refs ∨ x ∈ loser.source_refs) := by
  intro winner loser hwdef hldef
  have hres : (resolveConflict store entryId .merge now).entries =
      mergeEntries store.entries store.active_workspace_id entryIdx entry now := by
    unfold resolveConflict
    rw [hfind]
    dsimp only
    rw [hget]
    dsimp only
    rw [if_pos hst]
  by_cases hrank : rank entry < rank other
  · rw [if_pos hrank] at hwdef hldef
    rw [hwdef, hldef]
    have hme : mergeEntries store.entries store.active_workspace_id entryIdx entry now =
        (listEraseAt (listSet store.entries j (mergedWinner other entry now))
          entryIdx).map (cleanupLoser entry.id now) := by
      unfold mergeEntries
      rw [hcw]
      dsimp only
      rw [hother]
      dsimp only
      rw [if_pos hrank]
      dsimp only
      rw [hother, hget]
    rw [hres, hme]
    have hp := mergeShape_props hother hget (fun hc => hne hc.symm) now
    refine ⟨hp.1, hp.2.1, hp.2.2, rfl, rfl, rfl, rfl, rfl, ?_, ?_⟩
    · intro sr hsr
      exact mergeRefs_covers entry.source_refs other.source_refs sr hsr
    · intro x hx
      exact mergeRefs_sub entry.source_refs other.source_refs x hx
  · rw [if_neg hrank] at hwdef hldef
    rw [hwdef, hldef]
    have hme : mergeEntries store.entries store.active_workspace_id entryIdx entry now =
        (listEraseAt (listSet store.entries entryIdx (mergedWinner entry other now))
          j).map (cleanupLoser other.id now) := by
      unfold mergeEntries
      rw [hcw]
      dsimp only
      rw [hother]
      dsimp only
      rw [if_neg hrank]
      dsimp only
      rw [hget, hother]
    rw [hres, hme]
    have hp := mergeShape_props hget hother hne now
    refine ⟨hp.1, hp.2.1, hp.2.2, rfl, rfl, rfl, rfl, rfl, ?_, ?_⟩
    · intro sr hsr
      exact mergeRefs_covers other.source_refs entry.source_refs sr hsr
    · intro x hx
      exact mergeRefs_sub other.source_refs entry.source_refs x hx

theorem C5_merge_witness :
    (resolveConflict witPairStore 0 .merge 5).entries.length + 1 =
        witPairStore.entries.length ∧
      totalOcc (resolveConflict witPairStore 0 .merge 5).entries =
        totalOcc witPairStore.entries :=
  ⟨(C5_merge_resolution witPairStore 0 5 0 1
      (witEntry 0 DEFAULT_WORKSPACE_ID .conflict (some 1) "p1".data 0)
      (witEntry 1 DEFAULT_WORKSPACE_ID .conflict (some 0) "p2".data 1)
      (by decide) (by decide) (by decide) (by decide) (by decide) (by decide)
      _ _ rfl rfl).1,
   (C5_merge_resolution witPairStore 0 5 0 1
      (witEntry 0 DEFAULT_WORKSPACE_ID .conflict (some 1) "p1".data 0)
      (witEntry 1 DEFAULT_WORKSPACE_ID .conflict (some 0) "p2".data 1)
      (by decide) (by decide) (by decide) (by decide) (by decide) (by decide)
      _ _ rfl rfl).2.1⟩

/-- C6: a `keep_both` resolution of an existing active-workspace `conflict`
entry preserves the entry count and the total occurrence count, rewrites the
resolved entry with its back-reference cleared, status `unique` and a
resolution stamp; and when the counterpart designated by the back-reference
reciprocally points at the resolved entry with status `conflict`, it is
symmetrically cleared too. -/
theorem C6_keep_both (store : WorkspaceStoreV2) (entryId now entryIdx : Nat)
    (entry : WorkspaceEntry)
    (hfind : findIndex (entryPred store.active_workspace_id entryId) store.entries =
      some entryIdx)
    (hget : store.entries.get? entryIdx = some entry)
    (hst : entry.dedup_status = .conflict) :
    (resolveConflict store entryId .keep_both now).entries.length =
        store.entries.length ∧
    totalOcc (resolveConflict store entryId .keep_both now).entries =
        totalOcc store.entries ∧
    (resolveConflict store entryId .keep_both now).entries.get? entryIdx =
        some (clearEntry entry now) ∧
    (clearEntry entry now).conflict_with = none ∧
    (clearEntry entry now).dedup_status = .unique ∧
    (clearEntry entry now).resolved_at = some now ∧
    (∀ j other,
      conflictIdxOf store.entries store.active_workspace_id entry = some j →
      (listSet store.entries entryIdx (clearEntry entry now)).get? j = some other →
      other.dedup_status = .conflict → other.conflict_with = some entryId →
      (resolveConflict store entryId .keep_both now).entries.get? j =
        some (clearEntry other now)) := by
  have hres : (resolveConflict store entryId .keep_both now).entries =
      keepBothEntries store.entries store.active_workspace_id entryId entryIdx
        entry now := by
    unfold resolveConflict
    rw [hfind]
    dsimp only
    rw [hget]
    dsimp only
    rw [if_pos hst]
  have hocc1 : (clearEntry entry now).occurrence_count = entry.occurrence_count := rfl
  have hset1 : totalOcc (listSet store.entries entryIdx (clearEntry entry now)) =
      totalOcc store.entries := by
    have := totalOcc_listSet (clearEntry entry now) hget
    omega
  rw [hres]
  unfold keepBothEntries
  cases hci : conflictIdxOf store.entries store.active_workspace_id entry with
  | none =>
    refine ⟨length_listSet _ _ _, hset1, get?_listSet_self _ hget, rfl, rfl, rfl, ?_⟩
    intro j2 other hci2 hg2 h1 h2
    cases hci2
  | some j =>
    dsimp only
    cases hg2 : (listSet store.entries entryIdx (clearEntry entry now)).get? j with
    | none =>
      refine ⟨length_listSet _ _ _, hset1, get?_listSet_self _ hget, rfl, rfl, rfl, ?_⟩
      intro j2 other hci2 hg2b h1 h2
      have hjj : j = j2 := by injection hci2
      subst hjj
      rw [hg2] at hg2b
      cases hg2b
    | some other0 =>
      dsimp only
      by_cases hrec : other0.dedup_status = .conflict ∧ other0.conflict_with = some entryId
      · rw [if_pos hrec]
        have hje : j ≠ entryIdx := by
          intro hc
          subst hc
          rw [get?_listSet_self (clearEntry entry now) hget] at hg2
          have ho : clearEntry entry now = other0 := by injection hg2
          have : other0.dedup_status = .unique := by rw [← ho]; rfl
          rw [hrec.1] at this
          cases this
        refine ⟨?_, ?_, ?_, rfl, rfl, rfl, ?_⟩
        · rw [length_listSet, length_listSet]
        · have h2 := totalOcc_listSet (clearEntry other0 now) hg2
          have hocc2 : (clearEntry other0 now).occurrence_count =
              other0.occurrence_count := rfl
          omega
        · rw [get?_listSet_ne _ j (clearEntry other0 now) (fun hc => hje hc.symm)]
          exact get?_listSet_self _ hget
        · intro j2 other hci2 hg2b h1 h2
          have hjj : j = j2 := by injection hci2
          subst hjj
          rw [hg2] at hg2b
          have ho : other0 = other := by injection hg2b
          subst ho
          exact get?_listSet_self _ hg2
      · rw [if_neg hrec]
        refine ⟨length_listSet _ _ _, hset1, get?_listSet_self _ hget, rfl, rfl, rfl, ?_⟩
        intro j2 other hci2 hg2b h1 h2
        have hjj : j = j2 := by injection hci2
        subst hjj
        rw [hg2] at hg2b
        have ho : other0 = other := by injection hg2b
        subst ho
        exact absurd ⟨h1, h2⟩ hrec

theorem C6_keep_both_witness :
    (resolveConflict witPairStore 0 .keep_both 5).entries.length =
        witPairStore.entries.length ∧
      (resolveConflict witPairStore 0 .keep_both 5).entries.get? 0 =
        some (clearEntry (witEntry 0 DEFAULT_WORKSPACE_ID .conflict (some 1)
          "p1".data 0) 5) :=
  ⟨(C6_keep_both witPairStore 0 5 0
      (witEntry 0 DEFAULT_WORKSPACE_ID .conflict (some 1) "p1".data 0)
      (by decide) (by decide) (by decide)).1,
   (C6_keep_both witPairStore 0 5 0
      (witEntry 0 DEFAULT_WORKSPACE_ID .conflict (some 1) "p1".data 0)
      (by decide) (by decide) (by decide)).2.2.1⟩

/-- C9: at every point of every `addReferences` batch (any prefix of the
qualifying references, over any starting store), the fuzzy-similarity path
can only merge into an entry whose stored reference has a falsy normalized
DOI: the similarity candidates are exactly such entries, so an entry whose
reference carries a (truthy) DOI never gains a source reference through the
title-similarity path, even at similarity 1.0. -/
theorem C9_no_fuzzy_merge_into_doi_entry (store : WorkspaceStoreV2)
    (pid plbl : Str) (now seed : Nat) (done : List Reference) (r : Reference) :
    ∀ st : BatchState,
      st = done.foldl (processRef store.active_workspace_id pid plbl now)
        (buildMapsGo store.active_workspace_id store.entries 0
          (initBatch store.entries seed)) →
      doiLookup st r = none → fpLookup st r = none →
      ∀ i s, fuzzyScan st.entries r.title st.simCands (none, ⟨0, 1⟩) = (some i, s) →
        Score.le AUTO_MERGE_THRESHOLD s →
        processRef store.active_workspace_id pid plbl now st r =
          mergeAt st i ⟨pid, plbl, r.index⟩ now ∧
        ∃ c, st.entries.get? i = some c ∧
          truthyVal (normalizeDoi c.reference.doi) = none := by
  intro st hstdef hd hf i s hfz hle
  have hma : MapsActive store.active_workspace_id st := by
    rw [hstdef]
    exact (foldl_frame_maps store.active_workspace_id pid plbl now done _
      (addReferences_initial_mapsActive store seed)).2
  have hmem : i ∈ st.simCands := (fuzzyScan_some_mem hfz).1
  rcases hma.1 i hmem with ⟨c, hgc, -, hdoi⟩
  refine ⟨?_, c, hgc, hdoi⟩
  rw [processRef_eq_fuzzy_some hd hf hfz store.active_workspace_id pid plbl now,
      if_pos hle]

theorem C9_witness :
    processRef DEFAULT_WORKSPACE_ID "p9".data "P9".data 7
        (buildMapsGo DEFAULT_WORKSPACE_ID [cexEntryA] 0 (initBatch [cexEntryA] 5))
        { cexRefA with title := some "abcdefghijkl".data } =
      mergeAt (buildMapsGo DEFAULT_WORKSPACE_ID [cexEntryA] 0
          (initBatch [cexEntryA] 5)) 0
        ⟨"p9".data, "P9".data,
          ({ cexRefA with title := some "abcdefghijkl".data } : Reference).index⟩ 7 ∧
    ∃ c, (buildMapsGo DEFAULT_WORKSPACE_ID [cexEntryA] 0
        (initBatch [cexEntryA] 5)).entries.get? 0 = some c ∧
      truthyVal (normalizeDoi c.reference.doi) = none :=
  C9_no_fuzzy_merge_into_doi_entry { createEmptyStore 0 with entries := [cexEntryA] }
    "p9".data "P9".data 7 5 []
    { cexRefA with title := some "abcdefghijkl".data } _ rfl (by decide) (by decide)
    0 ⟨20, 21⟩ (by decide) (by decide)

/-- C10 (counterexample): the claim that every mutating operation leaves every
entry of a foreign workspace unchanged is false: after a `merge` resolution
deletes the losing entry, the cleanup loop rewrites every entry whose
back-reference names the deleted id, regardless of workspace — a foreign
entry back-referencing the loser is modified. -/
theorem C10_counterexample :
    ¬ (∀ (store : WorkspaceStoreV2) (entryId : Nat) (res : ConflictResolution)
        (now : Nat), ∀ e ∈ store.entries,
          e.workspace_id ≠ store.active_workspace_id →
          e ∈ (resolveConflict store entryId res now).entries) := by
  intro h
  exact absurd
    (h cexCrossStore 0 .merge 5 (witEntry 2 ("other".data) .conflict (some 1)
      "p3".data 2) (by decide) (by decide))
    (by decide)

/-- C10 (amended): `addReferences` and `clearWorkspace` preserve the foreign
entries (those whose workspace id differs from the active one) exactly, and
`clearWorkspace` removes precisely the active-workspace entries;
`resolveConflict` preserves the foreign entries provided no foreign entry
back-references an active-workspace entry (which holds in every reachable
store, where all entries live in the active default workspace). -/
theorem C10_amended_frame (store : WorkspaceStoreV2) (input : AddReferencesInput)
    (now seed entryId : Nat) (res : ConflictResolution) :
    (addReferences store input now seed).1.entries.filter
        (fun e => decide (e.workspace_id ≠ store.active_workspace_id)) =
      store.entries.filter
        (fun e => decide (e.workspace_id ≠ store.active_workspace_id)) ∧
    (NoCrossRef store →
      (resolveConflict store entryId res now).entries.filter
          (fun e => decide (e.workspace_id ≠ store.active_workspace_id)) =
        store.entries.filter
          (fun e => decide (e.workspace_id ≠ store.active_workspace_id))) ∧
    (clearWorkspace store now).entries =
      store.entries.filter
        (fun e => decide (e.workspace_id ≠ store.active_workspace_id)) := by
  refine ⟨?_, ?_, rfl⟩
  · show ((input.references.filter qualifies).foldl
        (processRef store.active_workspace_id input.paperId input.paperLabel now)
        (buildMapsGo store.active_workspace_id store.entries 0
          (initBatch store.entries seed))).entries.filter
        (fun e => decide (e.workspace_id ≠ store.active_workspace_id)) = _
    have h1 := (foldl_frame_maps store.active_workspace_id input.paperId
      input.paperLabel now (input.references.filter qualifies) _
      (addReferences_initial_mapsActive store seed)).1
    rw [h1, (buildMapsGo_parts store.active_workspace_id store.entries 0
      (initBatch store.entries seed)).1]
    rfl
  · intro hcross
    exact resolveConflict_frame hcross entryId res now

theorem C10_amended_witness :
    (resolveConflict witPairStore 0 .merge 5).entries.filter
        (fun e => decide (e.workspace_id ≠ witPairStore.active_workspace_id)) =
      witPairStore.entries.filter
        (fun e => decide (e.workspace_id ≠ witPairStore.active_workspace_id)) :=
  (C10_amended_frame witPairStore cexInpA 5 9 0 .merge).2.1 (by
    intro e he hws
    exfalso
    apply hws
    have h2 : e = witEntry 0 DEFAULT_WORKSPACE_ID .conflict (some 1) "p1".data 0 ∨
        e = witEntry 1 DEFAULT_WORKSPACE_ID .conflict (some 0) "p2".data 1 := by
      simpa [witPairStore] using he
    rcases h2 with rfl | rfl <;> decide)

end RefBib
